import Mathlib

/-!
Verification of the One Click Decimate add-on (`One_Click_Decimate.py`).

The development shallowly embeds the two core components of the program:

* the boundary/seam classifier that builds the "LOCK" vertex group inside
  `OBJECT_OT_one_click_decimate.execute` (source lines 160-176), and
* `transfer_mesh_data` (source lines 32-111), the nearest-surface attribute
  resampler, together with the orchestrating `execute` operator.

Host-library behaviour (Blender's `bmesh`, `mathutils.bvhtree`, `bpy` object
API) is modelled explicitly: positions are rational 3-vectors, the BVH
nearest query is the exact argmin of the point-to-triangle squared distance
(the point/triangle routine mirrors Blender's `closest_on_tri_to_point_v3`,
which is the standard Ericson algorithm), matrices are rational 4x4 matrices,
and vertex groups are sparse index-to-weight maps.
-/

namespace OneClickDecimate

/-- Rational 3-vector, the model of `mathutils.Vector` mesh coordinates. -/
structure V3 where
  x : ℚ
  y : ℚ
  z : ℚ
  deriving DecidableEq, Repr

def dfltV : V3 := ⟨0, 0, 0⟩

def V3.add (a b : V3) : V3 := ⟨a.x + b.x, a.y + b.y, a.z + b.z⟩

def V3.sub (a b : V3) : V3 := ⟨a.x - b.x, a.y - b.y, a.z - b.z⟩

def V3.smul (c : ℚ) (v : V3) : V3 := ⟨c * v.x, c * v.y, c * v.z⟩

def V3.dot (a b : V3) : ℚ := a.x * b.x + a.y * b.y + a.z * b.z

/-- Squared Euclidean distance.  `mathutils` compares `(sv.co - p).length`;
comparing squared distances orders points identically. -/
def distSq (a b : V3) : ℚ := V3.dot (V3.sub a b) (V3.sub a b)

theorem distSq_nonneg (a b : V3) : 0 ≤ distSq a b := by
  simp only [distSq, V3.dot, V3.sub]
  nlinarith [sq_nonneg (a.x - b.x), sq_nonneg (a.y - b.y), sq_nonneg (a.z - b.z)]

theorem distSq_self (a : V3) : distSq a a = 0 := by
  simp only [distSq, V3.dot, V3.sub]
  ring

theorem eq_of_distSq_eq_zero {a b : V3} (h : distSq a b = 0) : a = b := by
  simp only [distSq, V3.dot, V3.sub] at h
  have hx : a.x = b.x := by nlinarith [sq_nonneg (a.x - b.x), sq_nonneg (a.y - b.y), sq_nonneg (a.z - b.z)]
  have hy : a.y = b.y := by nlinarith [sq_nonneg (a.x - b.x), sq_nonneg (a.y - b.y), sq_nonneg (a.z - b.z)]
  have hz : a.z = b.z := by nlinarith [sq_nonneg (a.x - b.x), sq_nonneg (a.y - b.y), sq_nonneg (a.z - b.z)]
  cases a; cases b; simp_all

/-- Closest point of triangle `(a, b, c)` to `p`; model of Blender's
`closest_on_tri_to_point_v3` (the standard region-based closest-point
algorithm), which the BVH nearest query calls on every candidate triangle. -/
def closestOnTri (p a b c : V3) : V3 :=
  let ab := V3.sub b a
  let ac := V3.sub c a
  let ap := V3.sub p a
  let d1 := V3.dot ab ap
  let d2 := V3.dot ac ap
  if d1 ≤ 0 ∧ d2 ≤ 0 then a else
  let bp := V3.sub p b
  let d3 := V3.dot ab bp
  let d4 := V3.dot ac bp
  if 0 ≤ d3 ∧ d4 ≤ d3 then b else
  let vc := d1 * d4 - d3 * d2
  if vc ≤ 0 ∧ 0 ≤ d1 ∧ d3 ≤ 0 then V3.add a (V3.smul (d1 / (d1 - d3)) ab) else
  let cp := V3.sub p c
  let d5 := V3.dot ab cp
  let d6 := V3.dot ac cp
  if 0 ≤ d6 ∧ d5 ≤ d6 then c else
  let vb := d5 * d2 - d1 * d6
  if vb ≤ 0 ∧ 0 ≤ d2 ∧ d6 ≤ 0 then V3.add a (V3.smul (d2 / (d2 - d6)) ac) else
  let va := d3 * d6 - d4 * d5
  if va ≤ 0 ∧ 0 ≤ d4 - d3 ∧ 0 ≤ d5 - d6 then
    V3.add b (V3.smul ((d4 - d3) / ((d4 - d3) + (d5 - d6))) (V3.sub c b)) else
  let denom := va + vb + vc
  V3.add a (V3.add (V3.smul (vb / denom) ab) (V3.smul (vc / denom) ac))

/-- A triangle of the source BVH, as a triple of vertex indices. -/
abbrev Tri := Nat × Nat × Nat

/-- Squared distance from `p` to triangle `T` of the indexed vertex list. -/
def triDistSq (verts : List V3) (p : V3) (T : Tri) : ℚ :=
  distSq p (closestOnTri p (verts.getD T.1 dfltV) (verts.getD T.2.1 dfltV) (verts.getD T.2.2 dfltV))

theorem triDistSq_nonneg (verts : List V3) (p : V3) (T : Tri) : 0 ≤ triDistSq verts p T :=
  distSq_nonneg _ _

theorem closestOnTri_vertA (a b c : V3) : closestOnTri a a b c = a := by
  unfold closestOnTri
  rw [if_pos]
  constructor <;> · simp only [V3.dot, V3.sub]; ring_nf; rfl

theorem closestOnTri_vertB (a b c : V3) (hab : a ≠ b) : closestOnTri b a b c = b := by
  unfold closestOnTri
  rw [if_neg, if_pos]
  · constructor <;> · simp only [V3.dot, V3.sub]; ring_nf; rfl
  · intro h
    apply hab
    have h1 := h.1
    simp only [V3.dot, V3.sub] at h1
    have hx : a.x = b.x := by nlinarith [sq_nonneg (b.x - a.x), sq_nonneg (b.y - a.y), sq_nonneg (b.z - a.z)]
    have hy : a.y = b.y := by nlinarith [sq_nonneg (b.x - a.x), sq_nonneg (b.y - a.y), sq_nonneg (b.z - a.z)]
    have hz : a.z = b.z := by nlinarith [sq_nonneg (b.x - a.x), sq_nonneg (b.y - a.y), sq_nonneg (b.z - a.z)]
    cases a; cases b; simp_all

theorem V3.eq_of_comps {u v : V3} (hx : u.x = v.x) (hy : u.y = v.y) (hz : u.z = v.z) :
    u = v := by
  cases u; cases v; simp_all

set_option maxHeartbeats 1000000 in
theorem closestOnTri_vertC (a b c : V3) (hab : a ≠ b) (hac : a ≠ c) (hbc : b ≠ c) :
    closestOnTri c a b c = c := by
  have habs : 0 < V3.dot (V3.sub b a) (V3.sub b a) := by
    rcases lt_or_eq_of_le (distSq_nonneg b a) with h | h
    · simpa [distSq] using h
    · exact absurd (eq_of_distSq_eq_zero h.symm) (fun e => hab e.symm)
  have hacs : 0 < V3.dot (V3.sub c a) (V3.sub c a) := by
    rcases lt_or_eq_of_le (distSq_nonneg c a) with hlt | heq
    · simpa [distSq] using hlt
    · exact absurd (eq_of_distSq_eq_zero heq.symm) (fun e => hac e.symm)
  have hbcs : 0 < V3.dot (V3.sub c b) (V3.sub c b) := by
    rcases lt_or_eq_of_le (distSq_nonneg c b) with hlt | heq
    · simpa [distSq] using hlt
    · exact absurd (eq_of_distSq_eq_zero heq.symm) (fun e => hbc e.symm)
  simp only [closestOnTri]
  split_ifs with h1 h2 h3 h4 h5 h6
  · exact absurd h1.2 (by linarith)
  · refine absurd h2.2 ?_
    have h34 : V3.dot (V3.sub c a) (V3.sub c b) - V3.dot (V3.sub b a) (V3.sub c b) =
        V3.dot (V3.sub c b) (V3.sub c b) := by
      simp only [V3.dot, V3.sub]; ring
    intro hle
    linarith
  · -- collinear region: the edge-`ab` interpolation point is `c` itself
    obtain ⟨hvc, hd1, hd3⟩ := h3
    -- the region test value equals the Lagrange expression |ab|^2 |ac|^2 - (ab.ac)^2
    have hvc' : V3.dot (V3.sub b a) (V3.sub b a) * V3.dot (V3.sub c a) (V3.sub c a) -
        V3.dot (V3.sub b a) (V3.sub c a) * V3.dot (V3.sub b a) (V3.sub c a) ≤ 0 := by
      have hid : V3.dot (V3.sub b a) (V3.sub c a) * V3.dot (V3.sub c a) (V3.sub c b) -
          V3.dot (V3.sub b a) (V3.sub c b) * V3.dot (V3.sub c a) (V3.sub c a) =
          V3.dot (V3.sub b a) (V3.sub b a) * V3.dot (V3.sub c a) (V3.sub c a) -
          V3.dot (V3.sub b a) (V3.sub c a) * V3.dot (V3.sub b a) (V3.sub c a) := by
        simp only [V3.dot, V3.sub]; ring
      linarith [hvc, hid.ge, hid.le]
    have hminor : V3.dot (V3.sub b a) (V3.sub b a) * V3.dot (V3.sub c a) (V3.sub c a) -
        V3.dot (V3.sub b a) (V3.sub c a) * V3.dot (V3.sub b a) (V3.sub c a) =
        ((b.sub a).y * (c.sub a).z - (b.sub a).z * (c.sub a).y) ^ 2 +
        ((b.sub a).z * (c.sub a).x - (b.sub a).x * (c.sub a).z) ^ 2 +
        ((b.sub a).x * (c.sub a).y - (b.sub a).y * (c.sub a).x) ^ 2 := by
      simp only [V3.dot, V3.sub]; ring
    have hz1 : (b.sub a).y * (c.sub a).z - (b.sub a).z * (c.sub a).y = 0 := by
      nlinarith [hvc', hminor, sq_nonneg ((b.sub a).y * (c.sub a).z - (b.sub a).z * (c.sub a).y),
        sq_nonneg ((b.sub a).z * (c.sub a).x - (b.sub a).x * (c.sub a).z),
        sq_nonneg ((b.sub a).x * (c.sub a).y - (b.sub a).y * (c.sub a).x)]
    have hz2 : (b.sub a).z * (c.sub a).x - (b.sub a).x * (c.sub a).z = 0 := by
      nlinarith [hvc', hminor, sq_nonneg ((b.sub a).y * (c.sub a).z - (b.sub a).z * (c.sub a).y),
        sq_nonneg ((b.sub a).z * (c.sub a).x - (b.sub a).x * (c.sub a).z),
        sq_nonneg ((b.sub a).x * (c.sub a).y - (b.sub a).y * (c.sub a).x)]
    have hz3 : (b.sub a).x * (c.sub a).y - (b.sub a).y * (c.sub a).x = 0 := by
      nlinarith [hvc', hminor, sq_nonneg ((b.sub a).y * (c.sub a).z - (b.sub a).z * (c.sub a).y),
        sq_nonneg ((b.sub a).z * (c.sub a).x - (b.sub a).x * (c.sub a).z),
        sq_nonneg ((b.sub a).x * (c.sub a).y - (b.sub a).y * (c.sub a).x)]
    have hden : V3.dot (V3.sub b a) (V3.sub c a) - V3.dot (V3.sub b a) (V3.sub c b) =
        V3.dot (V3.sub b a) (V3.sub b a) := by
      simp only [V3.dot, V3.sub]; ring
    have hSne : V3.dot (V3.sub b a) (V3.sub b a) ≠ 0 := ne_of_gt habs
    -- componentwise: a + (d1 / |ab|^2) * ab = c since |ab|^2 (c - a) = (ab.ac) ab
    have hpx : V3.dot (V3.sub b a) (V3.sub b a) * (c.x - a.x) =
        V3.dot (V3.sub b a) (V3.sub c a) * (b.sub a).x := by
      simp only [V3.dot, V3.sub] at hz2 hz3 ⊢
      linear_combination (b.z - a.z) * hz2 + (a.y - b.y) * hz3
    have hpy : V3.dot (V3.sub b a) (V3.sub b a) * (c.y - a.y) =
        V3.dot (V3.sub b a) (V3.sub c a) * (b.sub a).y := by
      simp only [V3.dot, V3.sub] at hz1 hz3 ⊢
      linear_combination (a.z - b.z) * hz1 + (b.x - a.x) * hz3
    have hpz : V3.dot (V3.sub b a) (V3.sub b a) * (c.z - a.z) =
        V3.dot (V3.sub b a) (V3.sub c a) * (b.sub a).z := by
      simp only [V3.dot, V3.sub] at hz1 hz2 ⊢
      linear_combination (b.y - a.y) * hz1 + (a.x - b.x) * hz2
    have hdx : V3.dot (V3.sub b a) (V3.sub c a) /
        (V3.dot (V3.sub b a) (V3.sub c a) - V3.dot (V3.sub b a) (V3.sub c b)) * (b.sub a).x =
        c.x - a.x := by
      rw [div_mul_eq_mul_div, hden, div_eq_iff hSne]
      linear_combination -hpx
    have hdy : V3.dot (V3.sub b a) (V3.sub c a) /
        (V3.dot (V3.sub b a) (V3.sub c a) - V3.dot (V3.sub b a) (V3.sub c b)) * (b.sub a).y =
        c.y - a.y := by
      rw [div_mul_eq_mul_div, hden, div_eq_iff hSne]
      linear_combination -hpy
    have hdz : V3.dot (V3.sub b a) (V3.sub c a) /
        (V3.dot (V3.sub b a) (V3.sub c a) - V3.dot (V3.sub b a) (V3.sub c b)) * (b.sub a).z =
        c.z - a.z := by
      rw [div_mul_eq_mul_div, hden, div_eq_iff hSne]
      linear_combination -hpz
    refine V3.eq_of_comps ?_ ?_ ?_ <;> simp only [V3.add, V3.smul] <;>
      linarith [hdx, hdy, hdz]
  · rfl
  · refine absurd ?_ h4
    constructor <;> · simp only [V3.dot, V3.sub]; ring_nf; rfl
  · refine absurd ?_ h4
    constructor <;> · simp only [V3.dot, V3.sub]; ring_nf; rfl
  · refine absurd ?_ h4
    constructor <;> · simp only [V3.dot, V3.sub]; ring_nf; rfl

/-- First-minimal scan used by the BVH query model: returns the index (into
the triangle list) of a closest triangle together with its squared distance.
The earliest triangle attaining the minimum wins ties, fixing the choice the
BVH leaves unspecified. -/
def bestTri (verts : List V3) (p : V3) : List Tri → Option (Nat × ℚ)
  | [] => none
  | T :: rest =>
    let d := triDistSq verts p T
    match bestTri verts p rest with
    | none => some (0, d)
    | some (bi, bd) => if bd < d then some (bi + 1, bd) else some (0, d)

/-- Model of `mathutils.bvhtree.BVHTree.find_nearest`: `none` exactly when the
tree holds no triangle, otherwise the index of a distance-minimising triangle. -/
def findNearest (verts : List V3) (tris : List Tri) (p : V3) : Option Nat :=
  (bestTri verts p tris).map Prod.fst

theorem bestTri_eq_none_iff (verts : List V3) (p : V3) (tris : List Tri) :
    bestTri verts p tris = none ↔ tris = [] := by
  cases tris with
  | nil => simp [bestTri]
  | cons T rest =>
    simp only [bestTri]
    cases bestTri verts p rest with
    | none => simp
    | some b =>
      obtain ⟨bi, bd⟩ := b
      by_cases h : bd < triDistSq verts p T <;> simp [h]

theorem findNearest_eq_none_iff (verts : List V3) (tris : List Tri) (p : V3) :
    findNearest verts tris p = none ↔ tris = [] := by
  rw [findNearest, Option.map_eq_none']
  exact bestTri_eq_none_iff verts p tris

theorem bestTri_spec (verts : List V3) (p : V3) :
    ∀ (tris : List Tri) (bi : Nat) (bd : ℚ), bestTri verts p tris = some (bi, bd) →
      bi < tris.length ∧ bd = triDistSq verts p (tris.getD bi (0, 0, 0)) ∧
      ∀ j, j < tris.length → bd ≤ triDistSq verts p (tris.getD j (0, 0, 0))
  | [], bi, bd => by simp [bestTri]
  | T :: rest, bi, bd => by
    intro h
    simp only [bestTri] at h
    rcases hr : bestTri verts p rest with _ | ⟨ri, rd⟩
    · rw [hr] at h
      simp only [Option.some.injEq, Prod.mk.injEq] at h
      obtain ⟨hbi, hbd⟩ := h
      subst hbi; subst hbd
      refine ⟨by simp, by simp, ?_⟩
      intro j hj
      match j with
      | 0 => simp
      | j + 1 =>
        exfalso
        have := (bestTri_eq_none_iff verts p rest).mp hr
        subst this
        simp at hj
    · rw [hr] at h
      dsimp only at h
      obtain ⟨hlen, hval, hmin⟩ := bestTri_spec verts p rest ri rd hr
      by_cases hlt : rd < triDistSq verts p T
      · rw [if_pos hlt] at h
        simp only [Option.some.injEq, Prod.mk.injEq] at h
        obtain ⟨hbi, hbd⟩ := h
        subst hbi; subst hbd
        refine ⟨by simpa using hlen, by simpa using hval, ?_⟩
        intro j hj
        match j with
        | 0 => simpa using le_of_lt hlt
        | j + 1 => simpa using hmin j (by simpa using hj)
      · rw [if_neg hlt] at h
        simp only [Option.some.injEq, Prod.mk.injEq] at h
        obtain ⟨hbi, hbd⟩ := h
        subst hbi; subst hbd
        refine ⟨by simp, by simp, ?_⟩
        intro j hj
        match j with
        | 0 => simp
        | j + 1 =>
          have := hmin j (by simpa using hj)
          have hle := le_of_not_lt hlt
          simpa using le_trans hle this

theorem findNearest_spec (verts : List V3) (tris : List Tri) (p : V3) (i : Nat)
    (h : findNearest verts tris p = some i) :
    i < tris.length ∧ ∀ j, j < tris.length →
      triDistSq verts p (tris.getD i (0, 0, 0)) ≤ triDistSq verts p (tris.getD j (0, 0, 0)) := by
  rw [findNearest] at h
  rcases hb : bestTri verts p tris with _ | ⟨bi, bd⟩
  · rw [hb] at h; simp at h
  · rw [hb] at h
    simp only [Option.map_some', Option.some.injEq] at h
    subst h
    obtain ⟨hlen, hval, hmin⟩ := bestTri_spec verts p tris bi bd hb
    exact ⟨hlen, fun j hj => hval ▸ hmin j hj⟩

/-- First-minimal scan over the vertex indices of one face, the model of
`min(face.verts, key=lambda sv: (sv.co - local_pos).length)`: Python's `min`
returns the earliest element attaining the minimum. -/
def bestVert (verts : List V3) (p : V3) : List Nat → Option (Nat × ℚ)
  | [] => none
  | i :: rest =>
    let d := distSq (verts.getD i dfltV) p
    match bestVert verts p rest with
    | none => some (i, d)
    | some (bi, bd) => if bd < d then some (bi, bd) else some (i, d)

theorem bestVert_eq_none_iff (verts : List V3) (p : V3) (l : List Nat) :
    bestVert verts p l = none ↔ l = [] := by
  cases l with
  | nil => simp [bestVert]
  | cons i rest =>
    simp only [bestVert]
    cases bestVert verts p rest with
    | none => simp
    | some b =>
      obtain ⟨bi, bd⟩ := b
      dsimp only
      split <;> simp

theorem bestVert_spec (verts : List V3) (p : V3) :
    ∀ (l : List Nat) (bi : Nat) (bd : ℚ), bestVert verts p l = some (bi, bd) →
      bi ∈ l ∧ bd = distSq (verts.getD bi dfltV) p ∧
      ∀ j ∈ l, bd ≤ distSq (verts.getD j dfltV) p
  | [], bi, bd => by simp [bestVert]
  | i :: rest, bi, bd => by
    intro h
    simp only [bestVert] at h
    rcases hr : bestVert verts p rest with _ | ⟨ri, rd⟩
    · rw [hr] at h
      simp only [Option.some.injEq, Prod.mk.injEq] at h
      obtain ⟨hbi, hbd⟩ := h
      subst hbi; subst hbd
      refine ⟨List.mem_cons_self _ _, rfl, ?_⟩
      intro j hj
      rcases List.mem_cons.mp hj with hj | hj
      · subst hj; exact le_refl _
      · exfalso
        have hnil := (bestVert_eq_none_iff verts p rest).mp hr
        subst hnil
        simp at hj
    · rw [hr] at h
      dsimp only at h
      obtain ⟨hmem, hval, hmin⟩ := bestVert_spec verts p rest ri rd hr
      by_cases hlt : rd < distSq (verts.getD i dfltV) p
      · rw [if_pos hlt] at h
        simp only [Option.some.injEq, Prod.mk.injEq] at h
        obtain ⟨hbi, hbd⟩ := h
        subst hbi; subst hbd
        refine ⟨List.mem_cons_of_mem _ hmem, hval, ?_⟩
        intro j hj
        rcases List.mem_cons.mp hj with hj | hj
        · subst hj; exact le_of_lt hlt
        · exact hmin j hj
      · rw [if_neg hlt] at h
        simp only [Option.some.injEq, Prod.mk.injEq] at h
        obtain ⟨hbi, hbd⟩ := h
        subst hbi; subst hbd
        refine ⟨List.mem_cons_self _ _, rfl, ?_⟩
        intro j hj
        rcases List.mem_cons.mp hj with hj | hj
        · subst hj; exact le_refl _
        · exact le_trans (le_of_not_lt hlt) (hmin j hj)

/-- Vertex of face `T` closest to `p` (earliest on ties), the model of line 57
of the source: `min(face.verts, key=...)` followed by `.index`. -/
def nearestVertOfTri (verts : List V3) (T : Tri) (p : V3) : Nat :=
  ((bestVert verts p [T.1, T.2.1, T.2.2]).map Prod.fst).getD 0

/-- Fan triangulation of one polygon, the model of `bmesh.ops.triangulate`
(which splits every n-gon into triangles without adding vertices; the claims
below never depend on which diagonal split is chosen). -/
def fanTriangles (f : List Nat) : List Tri :=
  match f with
  | v0 :: v1 :: rest => (List.zip (v1 :: rest) rest).map (fun q => (v0, q.1, q.2))
  | _ => []

def triangulate (faces : List (List Nat)) : List Tri := faces.flatMap fanTriangles

/-- Application of a `mathutils` 4x4 world matrix to a 3D point
(`matrix @ vector`): the vector is promoted with a fourth coordinate 1 and the
first three coordinates of the product are returned. -/
def applyM (M : Matrix (Fin 4) (Fin 4) ℚ) (p : V3) : V3 :=
  ⟨M 0 0 * p.x + M 0 1 * p.y + M 0 2 * p.z + M 0 3,
   M 1 0 * p.x + M 1 1 * p.y + M 1 2 * p.z + M 1 3,
   M 2 0 * p.x + M 2 1 * p.y + M 2 2 * p.z + M 2 3⟩

/-- Model of `mathutils.Matrix.inverted()` via the adjugate formula (the
classical cofactor inverse that `mathutils` computes). -/
def inverted (M : Matrix (Fin 4) (Fin 4) ℚ) : Matrix (Fin 4) (Fin 4) ℚ :=
  M.det⁻¹ • M.adjugate

theorem inverted_one : inverted (1 : Matrix (Fin 4) (Fin 4) ℚ) = 1 := by
  simp [inverted]

theorem applyM_one (p : V3) : applyM (1 : Matrix (Fin 4) (Fin 4) ℚ) p = p := by
  cases p
  simp [applyM, Matrix.one_apply]

theorem inverted_mul_self {M : Matrix (Fin 4) (Fin 4) ℚ} (h : M.det ≠ 0) :
    inverted M * M = 1 := by
  rw [inverted, Matrix.smul_mul, Matrix.adjugate_mul, smul_smul, inv_mul_cancel₀ h, one_smul]

theorem applyM_mulVec (M : Matrix (Fin 4) (Fin 4) ℚ) (p : V3) (i : Fin 3) :
    (M.mulVec (fun j => if j = 0 then p.x else if j = 1 then p.y else if j = 2 then p.z else 1))
      i.castSucc = M i.castSucc 0 * p.x + M i.castSucc 1 * p.y + M i.castSucc 2 * p.z +
        M i.castSucc 3 := by
  simp [Matrix.mulVec, Matrix.dotProduct, Fin.sum_univ_four]

/-- Inverting and re-applying an affine world matrix is the identity: the
`world_to_source @ target_to_world @ v` round trip of lines 47-53 collapses
when both objects carry the same invertible affine matrix. -/
theorem applyM_inverted_applyM (M : Matrix (Fin 4) (Fin 4) ℚ) (hdet : M.det ≠ 0)
    (h30 : M 3 0 = 0) (h31 : M 3 1 = 0) (h32 : M 3 2 = 0) (h33 : M 3 3 = 1) (p : V3) :
    applyM (inverted M) (applyM M p) = p := by
  set v : Fin 4 → ℚ := fun j => if j = 0 then p.x else if j = 1 then p.y else if j = 2 then p.z else 1 with hv
  have hq : ∀ j : Fin 4, (fun j => if j = 0 then (applyM M p).x else if j = 1 then (applyM M p).y
      else if j = 2 then (applyM M p).z else 1) j = M.mulVec v j := by
    intro j
    fin_cases j
    · simpa using (applyM_mulVec M p 0).symm
    · simpa using (applyM_mulVec M p 1).symm
    · simpa using (applyM_mulVec M p 2).symm
    · simp [Matrix.mulVec, Matrix.dotProduct, Fin.sum_univ_four, hv, h30, h31, h32, h33]
  have hfun : (fun j => if j = 0 then (applyM M p).x else if j = 1 then (applyM M p).y
      else if j = 2 then (applyM M p).z else 1) = M.mulVec v := funext hq
  have hid : (inverted M).mulVec (M.mulVec v) = v := by
    rw [Matrix.mulVec_mulVec, inverted_mul_self hdet, Matrix.one_mulVec]
  refine V3.eq_of_comps ?_ ?_ ?_
  · have h0 := applyM_mulVec (inverted M) (applyM M p) 0
    have : ((inverted M).mulVec (M.mulVec v)) 0 = p.x := by rw [hid]; simp [hv]
    simp only [hfun] at h0
    simpa [applyM] using h0.symm.trans this
  · have h1 := applyM_mulVec (inverted M) (applyM M p) 1
    have : ((inverted M).mulVec (M.mulVec v)) 1 = p.y := by rw [hid]; simp [hv]
    simp only [hfun] at h1
    simpa [applyM] using h1.symm.trans this
  · have h2 := applyM_mulVec (inverted M) (applyM M p) 2
    have : ((inverted M).mulVec (M.mulVec v)) 2 = p.z := by rw [hid]; simp [hv]
    simp only [hfun] at h2
    simpa [applyM] using h2.symm.trans this

/-- Numeric suffix in Blender name-collision style (".001", ".002", ...). -/
def numSuffix (k : Nat) : String :=
  "." ++ (if k < 10 then "00" else if k < 100 then "0" else "") ++ toString k

def freshNameAux (names : List String) (base : String) : Nat → Nat → String
  | 0, k => base ++ numSuffix k
  | fuel + 1, k =>
    let cand := base ++ numSuffix k
    if cand ∈ names then freshNameAux names base fuel (k + 1) else cand

/-- Blender uniquifies datablock names on collision by appending ".001",
".002", ...; used when shape keys are added or renamed. -/
def freshName (names : List String) (base : String) : String :=
  if base ∈ names then freshNameAux names base (names.length + 1) 1 else base

theorem freshName_of_not_mem {names : List String} {base : String} (h : base ∉ names) :
    freshName names base = base := by
  simp [freshName, h]

/-- A mesh edge: two vertex indices and the UV-seam flag (`BMEdge.seam`). -/
structure Edge where
  a : Nat
  b : Nat
  seam : Bool
  deriving DecidableEq, Repr

/-- A vertex group: a name and a sparse vertex-index-to-weight map.  `w i =
none` models "vertex `i` is not a member of the group" (where
`VertexGroup.weight` raises `ValueError`). -/
structure VGroup where
  name : String
  w : Nat → Option ℚ

/-- A shape-key block (`bpy.types.ShapeKey`): per-vertex positions plus the
scalar metadata copied on lines 99-104.  `rel` is the `relative_key` pointer,
modelled as an index into the owning key list (0 = reference key). -/
structure KeyBlock where
  name : String
  data : List V3
  value : ℚ
  slider_min : ℚ
  slider_max : ℚ
  mute : Bool
  interpolation : String
  vertex_group : String
  rel : Option Nat
  deriving DecidableEq, Repr

def dfltKB : KeyBlock :=
  { name := "", data := [], value := 0, slider_min := 0, slider_max := 1,
    mute := false, interpolation := "KEY_LINEAR", vertex_group := "", rel := some 0 }

/-- A Blender object together with its mesh data: vertex positions, polygon
faces, edges, the world matrix, vertex groups, optional shape-key list (head =
reference key), and the scene-level bookkeeping `execute` touches. -/
structure Obj where
  name : String
  type : String
  verts : List V3
  faces : List (List Nat)
  edges : List Edge
  matrix_world : Matrix (Fin 4) (Fin 4) ℚ
  vertex_groups : List VGroup
  shape_keys : Option (List KeyBlock)
  active_shape_key_index : Nat
  hide : Bool
  parent : Option String
  parent_type : String
  parent_bone : String
  matrix_parent_inverse : Matrix (Fin 4) (Fin 4) ℚ

/-- Model of `bpy.types.VertexGroup.add(indices, weight, "REPLACE")`: every
listed vertex becomes a member with exactly the given weight. -/
def vgroupAdd (g : VGroup) (idxs : List Nat) (wt : ℚ) : VGroup :=
  { g with w := fun i => if i ∈ idxs then some wt else g.w i }

/-- Edges of the mesh incident to vertex `v` (`BMVert.link_edges`). -/
def linkEdges (m : Obj) (v : Nat) : List Edge :=
  m.edges.filter (fun e => e.a == v || e.b == v)

/-- The endpoint of `e` other than `v` (`BMEdge.other_vert`). -/
def otherVert (e : Edge) (v : Nat) : Nat := if e.a == v then e.b else e.a

/-- Does face `f` (a vertex-index cycle) use edge `e`? -/
def faceUsesEdge (f : List Nat) (e : Edge) : Bool :=
  (List.zip f (f.drop 1 ++ f.take 1)).any
    (fun q => (q.1 == e.a && q.2 == e.b) || (q.1 == e.b && q.2 == e.a))

/-- Model of `BMEdge.is_boundary`: the edge is used by exactly one face. -/
def isBoundary (m : Obj) (e : Edge) : Bool :=
  (m.faces.filter (fun f => faceUsesEdge f e)).length == 1

/-- Indices of the seam/boundary vertex set of lines 165-167:
`{v for v in bm.verts if any(e.seam or e.is_boundary for e in v.link_edges)}`. -/
def seamVertIdx (m : Obj) : List Nat :=
  (List.range m.verts.length).filter
    (fun v => (linkEdges m v).any (fun e => e.seam || isBoundary m e))

/-- Indices of the buffer-ring set of lines 170-173: every `other_vert` of an
edge incident to a seam/boundary vertex. -/
def bufferVertIdx (m : Obj) : List Nat :=
  (seamVertIdx m).flatMap (fun v => (linkEdges m v).map (fun e => otherVert e v))

/-- The "LOCK" vertex group built on lines 160-176: seam/boundary vertices
united with their one-ring buffer, all weighted 1.0 via `add(..., "REPLACE")`. -/
def lockGroup (m : Obj) : VGroup :=
  vgroupAdd { name := "LOCK", w := fun _ => none } (seamVertIdx m ++ bufferVertIdx m) 1

/-! ## `transfer_mesh_data` (source lines 32-111) -/

/-- Lines 52-53: a target vertex position carried to world space by
`target.matrix_world` and back into source-local space by
`source.matrix_world.inverted()`. -/
def localPos (source target : Obj) (p : V3) : V3 :=
  applyM (inverted source.matrix_world) (applyM target.matrix_world p)

/-- Lines 54-59 for one target vertex `t`: the nearest-surface query on the
triangulated source, resolved to the index of the closest vertex of the hit
face; `none` when the query finds no face. -/
def snapResult (source target : Obj) (t : Nat) : Option Nat :=
  let tris := triangulate source.faces
  let p := localPos source target (target.verts.getD t dfltV)
  match findNearest source.verts tris p with
  | none => none
  | some fIdx => some (nearestVertOfTri source.verts (tris.getD fIdx (0, 0, 0)) p)

/-- The `vert_map` dictionary of lines 46-59: one entry per target vertex whose
query hit a face, keyed by the target index in iteration order. -/
def buildVertMap (source target : Obj) : List (Nat × Nat) :=
  (List.range target.verts.length).filterMap
    (fun t => (snapResult source target t).map (fun s => (t, s)))

/-- Line 58 (`v.co = nearest_v.co`): mapped target vertices snap to their
resolved source vertex position; unmapped vertices keep their position. -/
def snapPositions (source target : Obj) : List V3 :=
  (List.range target.verts.length).map
    (fun t =>
      match snapResult source target t with
      | some s => source.verts.getD s dfltV
      | none => target.verts.getD t dfltV)

/-- One inner step of lines 66-72: look up the source weight (`weight` raises
for a non-member, modelled by `none`), and `add([t], weight, "REPLACE")` when
it is positive. -/
def groupStep (sg : VGroup) (tg : VGroup) (ts : Nat × Nat) : VGroup :=
  match sg.w ts.2 with
  | some wt => if 0 < wt then vgroupAdd tg [ts.1] wt else tg
  | none => tg

/-- Lines 63-72: clear the target groups, then for every source group create a
same-named empty group and replay the vertex map through `groupStep`. -/
def transferGroups (source : Obj) (vm : List (Nat × Nat)) : List VGroup :=
  source.vertex_groups.map
    (fun sg => vm.foldl (groupStep sg) { name := sg.name, w := fun _ => none })

def findVGroup (gs : List VGroup) (nm : String) : Option VGroup :=
  gs.find? (fun g => g.name == nm)

/-- Influence factor of key `k` at vertex `i` in the evaluated shape-key mix:
value, gated by the mute flag and by the key's driving vertex group. -/
def keyFactor (ob : Obj) (k : KeyBlock) (i : Nat) : ℚ :=
  (if k.mute then 0 else k.value) *
  (if k.vertex_group = "" then 1
   else match findVGroup ob.vertex_groups k.vertex_group with
        | some g => (g.w i).getD 0
        | none => 0)

/-- The key block `k.rel` points at; out-of-range indices resolve to the
reference key (in Blender the pointer is always valid). -/
def relOf (keys : List KeyBlock) (k : KeyBlock) : KeyBlock :=
  match keys[k.rel.getD 0]? with
  | some r => r
  | none => keys.headD dfltKB

/-- Evaluated relative shape-key mix at vertex `i`: reference position plus
every non-reference key's weighted delta against its relative key. -/
def mixAt (ob : Obj) (keys : List KeyBlock) (i : Nat) : V3 :=
  (keys.drop 1).foldl
    (fun acc k =>
      V3.add acc (V3.smul (keyFactor ob k i)
        (V3.sub (k.data.getD i dfltV) ((relOf keys k).data.getD i dfltV))))
    ((keys.headD dfltKB).data.getD i dfltV)

def mixData (ob : Obj) (keys : List KeyBlock) : List V3 :=
  (List.range ob.verts.length).map (mixAt ob keys)

/-- Model of `Object.shape_key_add(name=...)` with the default
`from_mix=True`: the first key takes the current mesh positions, later keys
take the evaluated mix; a colliding name gets a numeric suffix; a new key is
relative to the reference key. -/
def shapeKeyAdd (ob : Obj) (keys : List KeyBlock) (nm : String) : List KeyBlock :=
  match keys with
  | [] => [{ dfltKB with name := nm, data := ob.verts, rel := some 0 }]
  | _ =>
    keys ++ [{ dfltKB with
               name := freshName (keys.map KeyBlock.name) nm,
               data := mixData ob keys,
               rel := some 0 }]

/-- Line 85 (`target_ref_sk.name = ref_sk_src.name`): rename the reference
key, uniquified against the other key names. -/
def renameHead (keys : List KeyBlock) (nm : String) : List KeyBlock :=
  match keys with
  | [] => []
  | k :: rest => { k with name := freshName (rest.map KeyBlock.name) nm } :: rest

/-- The inner loop of lines 96-97: for every mapping pair `(t, s)` overwrite
the new key's datum at `t` with the source key's datum at `s`. -/
def writeMapped (skSrc : KeyBlock) (vm : List (Nat × Nat)) (k : KeyBlock) : KeyBlock :=
  vm.foldl (fun kk ts => { kk with data := kk.data.set ts.1 (skSrc.data.getD ts.2 dfltV) }) k

/-- The key block created for one non-reference source key by the loop body of
lines 90-107: create the key (`shape_key_add`, so with from-mix data and a
uniquified name), overwrite the data of every mapped target vertex from the
source key (lines 96-97), copy the scalar metadata (lines 99-104), and re-link
`relative_key` through `key_block_map` when the referenced name is known
(lines 106-107; `key_block_map` already holds the new key's own source name). -/
def skNewKey (skeys : List KeyBlock) (vm : List (Nat × Nat)) (t2 : Obj)
    (keys : List KeyBlock) (kbm : List (String × Nat)) (skSrc : KeyBlock) : KeyBlock :=
  let nk0 : KeyBlock :=
    { dfltKB with
      name := freshName (keys.map KeyBlock.name) skSrc.name,
      data := mixData t2 keys,
      rel := some 0 }
  let kbm1 := kbm ++ [(skSrc.name, keys.length)]
  let nk1 := writeMapped skSrc vm nk0
  let nk2 :=
    { nk1 with
      value := skSrc.value,
      slider_min := skSrc.slider_min,
      slider_max := skSrc.slider_max,
      mute := skSrc.mute,
      interpolation := skSrc.interpolation,
      vertex_group := skSrc.vertex_group }
  match skSrc.rel with
  | some r =>
    match List.lookup (skeys.getD r dfltKB).name kbm1 with
    | some j => { nk2 with rel := some j }
    | none => nk2
  | none => nk2

/-- One iteration of the loop of lines 90-107: append the re-created key and
record the source key's name in `key_block_map`. -/
def skStep (skeys : List KeyBlock) (vm : List (Nat × Nat)) (t2 : Obj)
    (st : List KeyBlock × List (String × Nat)) (skSrc : KeyBlock) :
    List KeyBlock × List (String × Nat) :=
  (st.1 ++ [skNewKey skeys vm t2 st.1 st.2 skSrc], st.2 ++ [(skSrc.name, st.1.length)])

/-- Lines 74-109: the shape-key phase.  Skipped when the source has no shape
keys; otherwise ensure a reference key exists on the target, rename it to the
source reference name, and replay every non-reference source key in order. -/
def shapeKeyPhase (source : Obj) (vm : List (Nat × Nat)) (t2 : Obj) : Obj :=
  match source.shape_keys with
  | none => t2
  | some skeys =>
    let refSrc := skeys.headD dfltKB
    let keys0 :=
      match t2.shape_keys with
      | none => shapeKeyAdd t2 [] refSrc.name
      | some ks => ks
    let keys1 := renameHead keys0 refSrc.name
    let kbm0 : List (String × Nat) := [(refSrc.name, 0)]
    let res := (skeys.drop 1).foldl (skStep skeys vm t2) (keys1, kbm0)
    { t2 with
      shape_keys := some res.1,
      active_shape_key_index := source.active_shape_key_index }

/-- `transfer_mesh_data(source, target)`, lines 32-111: snap positions and
build the vertex map, transfer the vertex groups, then the shape keys. -/
def transfer_mesh_data (source target : Obj) : Obj :=
  let vm := buildVertMap source target
  let t1 := { target with verts := snapPositions source target }
  let t2 := { t1 with vertex_groups := transferGroups source vm }
  shapeKeyPhase source vm t2

/-! ## `OBJECT_OT_one_click_decimate.execute` (source lines 124-205) -/

inductive OpStatus where
  | FINISHED
  | CANCELLED
  deriving DecidableEq, Repr

structure OpReport where
  level : String
  msg : String
  deriving DecidableEq, Repr

/-- The scene context `execute` reads: the object list, the active-object
index, and the scene ratio property. -/
structure Scene where
  objects : List Obj
  active : Option Nat
  ratioVal : ℚ

/-- `execute(self, context)`, lines 124-205.  The UV-seam pass
(`bpy.ops.uv.seams_from_islands`) and the decimate modifier are the spec's
external collaborators and enter as function parameters; everything else is
modelled directly.  Returns the report, the status set, and the new scene. -/
def executeObj (seamsFromIslands : Obj → Obj) (applyDecimate : Obj → ℚ → Obj)
    (ctx : Scene) (i : Nat) : Option Obj → OpReport × OpStatus × Scene
  | none => ({ level := "ERROR", msg := "Select a Mesh." }, OpStatus.CANCELLED, ctx)
  | some source_obj =>
      if source_obj.type ≠ "MESH" then
        ({ level := "ERROR", msg := "Select a Mesh." }, OpStatus.CANCELLED, ctx)
      else
        let ratioQ := ctx.ratioVal
        let orig_matrix := source_obj.matrix_world
        let orig_parent := source_obj.parent
        -- line 145: duplicate(linked=False)
        let working0 := source_obj
        -- line 149: parent_clear(type="CLEAR_KEEP_TRANSFORM")
        let working1 := { working0 with parent := none }
        -- line 150: transform_apply bakes the world matrix into the vertex
        -- (and shape-key) coordinates and resets the matrix to identity
        let working2 :=
          { working1 with
            verts := working1.verts.map (applyM working1.matrix_world),
            shape_keys := working1.shape_keys.map
              (fun ks => ks.map (fun k =>
                 { k with data := k.data.map (applyM working1.matrix_world) })),
            matrix_world := 1 }
        -- line 157: seams_from_islands (external collaborator)
        let working3 := seamsFromIslands working2
        -- lines 160-176: the LOCK group
        let working4 :=
          { working3 with vertex_groups := working3.vertex_groups ++ [lockGroup working3] }
        -- lines 179-180: shape_key_remove(all=True)
        let working5 :=
          if working4.shape_keys.isSome then
            { working4 with shape_keys := none, active_shape_key_index := 0 }
          else working4
        -- lines 183-188: the decimate modifier (external collaborator)
        let working6 := applyDecimate working5 ratioQ
        -- line 190
        let working7 := transfer_mesh_data source_obj working6
        -- lines 193-197: restore parenting
        let working8 :=
          match orig_parent with
          | some pnm =>
            { working7 with
              parent := some pnm,
              parent_type := source_obj.parent_type,
              parent_bone := source_obj.parent_bone,
              matrix_parent_inverse := source_obj.matrix_parent_inverse }
          | none => working7
        -- lines 199-201
        let working9 :=
          { working8 with
            matrix_world := orig_matrix,
            name := source_obj.name ++ "_Decimated" }
        let objs := (ctx.objects.set i { source_obj with hide := true }) ++ [working9]
        ({ level := "INFO", msg := "Mesh decimation complete with full data restoration." },
         OpStatus.FINISHED,
         { ctx with objects := objs, active := some (objs.length - 1) })

def executeHandle (seamsFromIslands : Obj → Obj) (applyDecimate : Obj → ℚ → Obj)
    (ctx : Scene) : Option Nat → OpReport × OpStatus × Scene
  | none => ({ level := "ERROR", msg := "Select a Mesh." }, OpStatus.CANCELLED, ctx)
  | some i => executeObj seamsFromIslands applyDecimate ctx i ctx.objects[i]?

def execute (seamsFromIslands : Obj → Obj) (applyDecimate : Obj → ℚ → Obj)
    (ctx : Scene) : OpReport × OpStatus × Scene :=
  executeHandle seamsFromIslands applyDecimate ctx ctx.active

/-! ## Claim statement vocabulary and lemmas for the boundary classifier -/

/-- Vertex `v` is incident to a seam-flagged or boundary edge. -/
def seamOrBoundaryIncident (m : Obj) (v : Nat) : Prop :=
  ∃ e ∈ m.edges, (e.seam = true ∨ isBoundary m e = true) ∧ (e.a = v ∨ e.b = v)

/-- Edge `e` joins vertices `u` and `v`. -/
def edgeJoins (e : Edge) (u v : Nat) : Prop :=
  (e.a = u ∧ e.b = v) ∨ (e.a = v ∧ e.b = u)

/-- Vertex `v` is one edge traversal away from a seam/boundary-incident vertex. -/
def oneStepFromLocked (m : Obj) (v : Nat) : Prop :=
  ∃ u, seamOrBoundaryIncident m u ∧ ∃ e ∈ m.edges, edgeJoins e u v

instance (e : Edge) (u v : Nat) : Decidable (edgeJoins e u v) := by
  unfold edgeJoins; infer_instance

instance (m : Obj) (v : Nat) : Decidable (seamOrBoundaryIncident m v) := by
  unfold seamOrBoundaryIncident; exact List.decidableBEx _ _

theorem mem_seamVertIdx {m : Obj} {v : Nat} :
    v ∈ seamVertIdx m ↔ v < m.verts.length ∧ seamOrBoundaryIncident m v := by
  simp only [seamVertIdx, List.mem_filter, List.mem_range, List.any_eq_true,
    seamOrBoundaryIncident, linkEdges, Bool.or_eq_true, beq_iff_eq, decide_eq_true_eq]
  aesop

theorem mem_bufferVertIdx {m : Obj} {v : Nat}
    (hE : ∀ e ∈ m.edges, e.a < m.verts.length ∧ e.b < m.verts.length) :
    v ∈ bufferVertIdx m ↔ oneStepFromLocked m v := by
  simp only [bufferVertIdx, List.mem_flatMap, List.mem_map]
  constructor
  · rintro ⟨u, hu, e, he, hov⟩
    have hu' := (mem_seamVertIdx.mp hu).2
    rcases List.mem_filter.mp he with ⟨hmem, hend⟩
    simp only [Bool.or_eq_true, beq_iff_eq] at hend
    refine ⟨u, hu', e, hmem, ?_⟩
    unfold otherVert at hov
    by_cases hau : e.a = u
    · simp only [hau, beq_self_eq_true, if_pos] at hov
      left; exact ⟨hau, hov⟩
    · have : (e.a == u) = false := by simp [hau]
      rw [this] at hov
      simp only [Bool.false_eq_true, if_false] at hov
      rcases hend with h | h
      · exact absurd h hau
      · right; exact ⟨hov, h⟩
  · rintro ⟨u, hu, e, hmem, hj⟩
    have hun : u < m.verts.length := by
      obtain ⟨e', he', _, hend⟩ := hu
      rcases hend with h | h
      · exact h ▸ (hE e' he').1
      · exact h ▸ (hE e' he').2
    refine ⟨u, mem_seamVertIdx.mpr ⟨hun, hu⟩, e, ?_, ?_⟩
    · refine List.mem_filter.mpr ⟨hmem, ?_⟩
      simp only [Bool.or_eq_true, beq_iff_eq]
      rcases hj with ⟨h1, _⟩ | ⟨_, h2⟩
      · exact Or.inl h1
      · exact Or.inr h2
    · unfold otherVert
      rcases hj with ⟨h1, h2⟩ | ⟨h1, h2⟩
      · simp [h1, h2]
      · by_cases hau : e.a = u
        · simp only [hau, beq_self_eq_true, if_pos]
          omega
        · have : (e.a == u) = false := by simp [hau]
          rw [this]
          simp [h1]

theorem lockGroup_w (m : Obj) (v : Nat) :
    (lockGroup m).w v =
      if v ∈ seamVertIdx m ++ bufferVertIdx m then some 1 else none := rfl

/-- Claim C1: the LOCK group of the boundary classifier (execute, lines
160-176) holds weight exactly 1.0 at every vertex incident to a seam-flagged
or boundary edge and at every vertex one edge traversal from such a vertex,
and has no entry (weight 0.0) at every other vertex. -/
theorem C1_lock_group_weights (m : Obj)
    (hE : ∀ e ∈ m.edges, e.a < m.verts.length ∧ e.b < m.verts.length) (v : Nat) :
    ((seamOrBoundaryIncident m v ∨ oneStepFromLocked m v) → (lockGroup m).w v = some 1) ∧
    (¬(seamOrBoundaryIncident m v ∨ oneStepFromLocked m v) → (lockGroup m).w v = none) := by
  constructor
  · intro h
    rw [lockGroup_w, if_pos]
    rw [List.mem_append]
    rcases h with h | h
    · left
      refine mem_seamVertIdx.mpr ⟨?_, h⟩
      obtain ⟨e, he, _, hend⟩ := h
      rcases hend with h' | h'
      · exact h' ▸ (hE e he).1
      · exact h' ▸ (hE e he).2
    · right
      exact (mem_bufferVertIdx hE).mpr h
  · intro h
    rw [lockGroup_w, if_neg]
    rw [List.mem_append]
    rintro (hmem | hmem)
    · exact h (Or.inl (mem_seamVertIdx.mp hmem).2)
    · exact h (Or.inr ((mem_bufferVertIdx hE).mp hmem))

/-- Concrete mesh for the C1 witness: a path 0-1-2-3 plus an isolated vertex
4, with the edge 0-1 flagged as a UV seam and no faces. -/
def mexC1 : Obj :=
  { name := "m", type := "MESH",
    verts := [⟨0,0,0⟩, ⟨1,0,0⟩, ⟨2,0,0⟩, ⟨3,0,0⟩, ⟨4,0,0⟩],
    faces := [], edges := [⟨0, 1, true⟩, ⟨1, 2, false⟩, ⟨2, 3, false⟩],
    matrix_world := 1, vertex_groups := [], shape_keys := none,
    active_shape_key_index := 0, hide := false, parent := none,
    parent_type := "OBJECT", parent_bone := "", matrix_parent_inverse := 1 }

theorem C1_lock_group_weights_witness :
    (lockGroup mexC1).w 0 = some 1 ∧ (lockGroup mexC1).w 2 = some 1 ∧
    (lockGroup mexC1).w 3 = none ∧ (lockGroup mexC1).w 4 = none := by
  have hE : ∀ e ∈ mexC1.edges, e.a < mexC1.verts.length ∧ e.b < mexC1.verts.length := by
    decide
  refine ⟨?_, ?_, ?_, ?_⟩
  · exact (C1_lock_group_weights mexC1 hE 0).1
      (Or.inl ⟨⟨0, 1, true⟩, by decide, by decide⟩)
  · exact (C1_lock_group_weights mexC1 hE 2).1
      (Or.inr ⟨1, ⟨⟨0, 1, true⟩, by decide, by decide⟩, ⟨1, 2, false⟩, by decide, by decide⟩)
  · decide
  · decide

/-- The active object of the scene context (`context.active_object`). -/
def activeObject (ctx : Scene) : Option Obj := ctx.active.bind (fun i => ctx.objects[i]?)

/-- Claim C9: with no active object, or an active object that is not a mesh,
`execute` reports `{"ERROR"} "Select a Mesh."`, returns `CANCELLED`, and the
scene is returned unchanged: no duplicate is created and no object or mesh
data is modified (source lines 129-132). -/
theorem C9_precondition_failure (seamsFromIslands : Obj → Obj)
    (applyDecimate : Obj → ℚ → Obj) (ctx : Scene)
    (h : activeObject ctx = none ∨ ∃ ob, activeObject ctx = some ob ∧ ob.type ≠ "MESH") :
    execute seamsFromIslands applyDecimate ctx =
      ({ level := "ERROR", msg := "Select a Mesh." }, OpStatus.CANCELLED, ctx) := by
  rcases hA : ctx.active with _ | i
  · rw [execute, hA, executeHandle]
  · rw [execute, hA, executeHandle]
    rcases hO : ctx.objects[i]? with _ | ob
    · rfl
    · have hm : ob.type ≠ "MESH" := by
        rcases h with h | ⟨ob', hob', hty⟩
        · rw [activeObject, hA] at h
          simp only [Option.some_bind] at h
          rw [h] at hO
          cases hO
        · rw [activeObject, hA] at hob'
          simp only [Option.some_bind] at hob'
          rw [hob'] at hO
          cases hO
          exact hty
      simp only [executeObj]
      rw [if_pos hm]

/-- Concrete camera (non-mesh) object and scene for the C9 witness. -/
def camObj : Obj :=
  { name := "cam", type := "CAMERA", verts := [], faces := [], edges := [],
    matrix_world := 1, vertex_groups := [], shape_keys := none,
    active_shape_key_index := 0, hide := false, parent := none,
    parent_type := "OBJECT", parent_bone := "", matrix_parent_inverse := 1 }

def ctxC9 : Scene := { objects := [camObj], active := some 0, ratioVal := 1 / 2 }

theorem C9_precondition_failure_witness :
    execute id (fun o _ => o) ctxC9 =
      ({ level := "ERROR", msg := "Select a Mesh." }, OpStatus.CANCELLED, ctxC9) :=
  C9_precondition_failure id (fun o _ => o) ctxC9
    (Or.inr ⟨camObj, rfl, by decide⟩)

/-! ## Vertex-map and group-transfer lemmas -/

theorem mem_buildVertMap {source target : Obj} {t s : Nat} :
    (t, s) ∈ buildVertMap source target ↔
      t < target.verts.length ∧ snapResult source target t = some s := by
  simp only [buildVertMap, List.mem_filterMap, List.mem_range, Option.map_eq_some']
  constructor
  · rintro ⟨a, ha, s', hs', heq⟩
    obtain ⟨rfl, rfl⟩ := Prod.mk.injEq .. ▸ heq
    exact ⟨ha, hs'⟩
  · rintro ⟨ht, hs⟩
    exact ⟨t, ht, s, hs, rfl⟩

theorem map_fst_filterMap_pair (g : Nat → Option Nat) (l : List Nat) :
    ((l.filterMap (fun t => (g t).map (fun s => (t, s)))).map Prod.fst) =
      l.filter (fun t => (g t).isSome) := by
  induction l with
  | nil => rfl
  | cons a l ih =>
    cases hg : g a with
    | none => simp [List.filterMap_cons, hg, ih]
    | some s => simp [List.filterMap_cons, hg, ih]

theorem buildVertMap_keys_nodup (source target : Obj) :
    ((buildVertMap source target).map Prod.fst).Nodup := by
  rw [buildVertMap, map_fst_filterMap_pair]
  exact (List.nodup_range _).filter _

theorem lookup_eq_of_mem_of_keys_nodup :
    ∀ (l : List (Nat × Nat)) (t s s' : Nat), (l.map Prod.fst).Nodup →
      (t, s) ∈ l → (t, s') ∈ l → s' = s
  | [], _, _, _, _, hmem, _ => by cases hmem
  | p :: rest, t, s, s', hnd, hmem, hmem' => by
    simp only [List.map_cons, List.nodup_cons] at hnd
    rcases List.mem_cons.mp hmem with h | h <;> rcases List.mem_cons.mp hmem' with h' | h'
    · have e := h'.trans h.symm
      exact (Prod.mk.injEq .. ▸ e).2
    · exfalso; exact hnd.1 (h ▸ (List.mem_map.mpr ⟨(t, s'), h', rfl⟩))
    · exfalso; exact hnd.1 (h' ▸ (List.mem_map.mpr ⟨(t, s), h, rfl⟩))
    · exact lookup_eq_of_mem_of_keys_nodup rest t s s' hnd.2 h h'

/-- The weight the group replay writes for mapping pair target `t` from
source vertex `s`: the source weight if the vertex is a member with positive
weight, otherwise the pre-existing value. -/
def replayedWeight (sg : VGroup) (s : Nat) (dflt : Option ℚ) : Option ℚ :=
  match sg.w s with
  | some wt => if 0 < wt then some wt else dflt
  | none => dflt

theorem foldl_groupStep_w_of_not_mem (sg : VGroup) (t : Nat) :
    ∀ (l : List (Nat × Nat)) (g0 : VGroup), (∀ p ∈ l, p.1 ≠ t) →
      ((l.foldl (groupStep sg) g0).w t) = g0.w t
  | [], _, _ => rfl
  | p :: rest, g0, h => by
    rw [List.foldl_cons]
    rw [foldl_groupStep_w_of_not_mem sg t rest _ (fun q hq => h q (List.mem_cons_of_mem _ hq))]
    have hne : p.1 ≠ t := h p (List.mem_cons_self _ _)
    unfold groupStep
    cases sg.w p.2 with
    | none => rfl
    | some wt =>
      dsimp only
      split
      · simp [vgroupAdd, (Ne.symm hne)]
      · rfl

theorem foldl_groupStep_name (sg : VGroup) :
    ∀ (l : List (Nat × Nat)) (g0 : VGroup), ((l.foldl (groupStep sg) g0).name) = g0.name
  | [], _ => rfl
  | p :: rest, g0 => by
    rw [List.foldl_cons, foldl_groupStep_name sg rest]
    unfold groupStep
    cases sg.w p.2 with
    | none => rfl
    | some wt =>
      dsimp only
      split <;> rfl

theorem foldl_groupStep_w_of_mem (sg : VGroup) (t s : Nat) :
    ∀ (l : List (Nat × Nat)) (g0 : VGroup), ((l.map Prod.fst).Nodup) → (t, s) ∈ l →
      ((l.foldl (groupStep sg) g0).w t) = replayedWeight sg s (g0.w t)
  | [], _, _, hmem => by cases hmem
  | p :: rest, g0, hnd, hmem => by
    simp only [List.map_cons, List.nodup_cons] at hnd
    rw [List.foldl_cons]
    by_cases hp : p.1 = t
    · have hps : p = (t, s) := by
        rcases List.mem_cons.mp hmem with h | h
        · exact h.symm
        · exact absurd (hp ▸ (List.mem_map.mpr ⟨(t, s), h, rfl⟩)) hnd.1
      subst hps
      have hrest : ∀ q ∈ rest, q.1 ≠ t := by
        intro q hq hqt
        exact hnd.1 (hqt ▸ (List.mem_map.mpr ⟨q, hq, rfl⟩))
      rw [foldl_groupStep_w_of_not_mem sg t rest _ hrest]
      unfold groupStep replayedWeight
      cases sg.w s with
      | none => rfl
      | some wt =>
        dsimp only
        split
        · simp [vgroupAdd]
        · rfl
    · have hmem' : (t, s) ∈ rest := by
        rcases List.mem_cons.mp hmem with h | h
        · exact absurd (by rw [← h]) hp
        · exact h
      rw [foldl_groupStep_w_of_mem sg t s rest _ hnd.2 hmem']
      have hg0 : (groupStep sg g0 p).w t = g0.w t := by
        unfold groupStep
        cases sg.w p.2 with
        | none => rfl
        | some wt =>
          dsimp only
          split
          · simp [vgroupAdd, (Ne.symm hp)]
          · rfl
      rw [hg0]

theorem transfer_vertex_groups (source target : Obj) :
    (transfer_mesh_data source target).vertex_groups =
      transferGroups source (buildVertMap source target) := by
  unfold transfer_mesh_data shapeKeyPhase
  cases source.shape_keys <;> rfl

theorem transfer_verts (source target : Obj) :
    (transfer_mesh_data source target).verts = snapPositions source target := by
  unfold transfer_mesh_data shapeKeyPhase
  cases source.shape_keys <;> rfl

theorem transfer_matrix_world (source target : Obj) :
    (transfer_mesh_data source target).matrix_world = target.matrix_world := by
  unfold transfer_mesh_data shapeKeyPhase
  cases source.shape_keys <;> rfl

/-- Claim C2: the group transfer (lines 63-72) clears the pre-existing target
groups and re-creates one same-named group per source group in order; for a
mapping pair `(t, s)` the target weight at `t` becomes exactly the source
weight at `s` when that weight is positive; every weight on the result is a
weight of the source at the mapped vertex (replacement, no accumulation, no
invented values). -/
theorem C2_group_replacement (source target : Obj) :
    ((transfer_mesh_data source target).vertex_groups.map VGroup.name =
      source.vertex_groups.map VGroup.name) ∧
    (∀ (j t s : Nat) (sg : VGroup), source.vertex_groups[j]? = some sg →
      (t, s) ∈ buildVertMap source target →
      ∃ rg : VGroup, (transfer_mesh_data source target).vertex_groups[j]? = some rg ∧
        rg.name = sg.name ∧ rg.w t = replayedWeight sg s none) ∧
    (∀ (j t : Nat) (rg : VGroup) (w' : ℚ),
      (transfer_mesh_data source target).vertex_groups[j]? = some rg →
      rg.w t = some w' →
      ∃ (sg : VGroup) (s : Nat), source.vertex_groups[j]? = some sg ∧
        (t, s) ∈ buildVertMap source target ∧ sg.w s = some w') := by
  rw [transfer_vertex_groups]
  refine ⟨?_, ?_, ?_⟩
  · rw [transferGroups, List.map_map]
    refine List.map_congr_left (fun a _ => ?_)
    exact foldl_groupStep_name a _ _
  · intro j t s sg hsg hts
    refine ⟨(buildVertMap source target).foldl (groupStep sg)
      ({ name := sg.name, w := fun _ => none } : VGroup), ?_, ?_, ?_⟩
    · simp [transferGroups, List.getElem?_map, hsg]
    · exact foldl_groupStep_name sg _ _
    · exact foldl_groupStep_w_of_mem sg t s _ _ (buildVertMap_keys_nodup source target) hts
  · intro j t rg w' hrg hw
    simp only [transferGroups, List.getElem?_map] at hrg
    rcases hsg : source.vertex_groups[j]? with _ | sg
    · rw [hsg] at hrg; cases hrg
    · rw [hsg] at hrg
      simp only [Option.map_some', Option.some.injEq] at hrg
      subst hrg
      by_cases hmem : ∃ s, (t, s) ∈ buildVertMap source target
      · obtain ⟨s, hs⟩ := hmem
        rw [foldl_groupStep_w_of_mem sg t s _ _ (buildVertMap_keys_nodup source target) hs] at hw
        unfold replayedWeight at hw
        rcases hws : sg.w s with _ | wt
        · rw [hws] at hw; cases hw
        · rw [hws] at hw
          dsimp only at hw
          rcases lt_or_le 0 wt with hpos | hneg
          · rw [if_pos hpos] at hw
            cases hw
            exact ⟨sg, s, rfl, hs, hws⟩
          · rw [if_neg (not_lt.mpr hneg)] at hw
            cases hw
      · have hno : ∀ p ∈ buildVertMap source target, p.1 ≠ t := by
          rintro ⟨t', s'⟩ hp rfl
          exact hmem ⟨s', hp⟩
        rw [foldl_groupStep_w_of_not_mem sg t _ _ hno] at hw
        cases hw

theorem localPos_one {s t : Obj} (hs : s.matrix_world = 1) (ht : t.matrix_world = 1)
    (p : V3) : localPos s t p = p := by
  rw [localPos, hs, ht, inverted_one, applyM_one, applyM_one]

/-! ## Concrete meshes shared by the witnesses -/

def basisW : KeyBlock :=
  { name := "Basis", data := [⟨0,0,0⟩, ⟨1,0,0⟩, ⟨0,1,0⟩], value := 0, slider_min := 0,
    slider_max := 1, mute := false, interpolation := "KEY_LINEAR", vertex_group := "",
    rel := some 0 }

def smileW : KeyBlock :=
  { name := "Smile", data := [⟨0,0,1⟩, ⟨1,0,0⟩, ⟨0,1,0⟩], value := 1/2, slider_min := 0,
    slider_max := 1, mute := false, interpolation := "KEY_LINEAR", vertex_group := "",
    rel := some 0 }

/-- Source witness mesh: a unit triangle with one vertex group and two shape
keys. -/
def srcW : Obj :=
  { name := "src", type := "MESH", verts := [⟨0,0,0⟩, ⟨1,0,0⟩, ⟨0,1,0⟩],
    faces := [[0, 1, 2]], edges := [⟨0, 1, false⟩, ⟨1, 2, false⟩, ⟨2, 0, false⟩],
    matrix_world := 1,
    vertex_groups := [{ name := "Weights", w := fun i => if i = 0 then some (1/2) else none }],
    shape_keys := some [basisW, smileW], active_shape_key_index := 1, hide := false,
    parent := none, parent_type := "OBJECT", parent_bone := "", matrix_parent_inverse := 1 }

/-- Target witness mesh: the identical geometry after a no-op simplification,
with groups and shape keys stripped (as the operator arranges). -/
def tgtW : Obj :=
  { name := "tgt", type := "MESH", verts := [⟨0,0,0⟩, ⟨1,0,0⟩, ⟨0,1,0⟩],
    faces := [[0, 1, 2]], edges := [⟨0, 1, false⟩, ⟨1, 2, false⟩, ⟨2, 0, false⟩],
    matrix_world := 1, vertex_groups := [], shape_keys := none,
    active_shape_key_index := 0, hide := false, parent := none,
    parent_type := "OBJECT", parent_bone := "", matrix_parent_inverse := 1 }

theorem vmW : buildVertMap srcW tgtW = [(0, 0), (1, 1), (2, 2)] := by
  have h : ∀ p, localPos srcW tgtW p = p := localPos_one rfl rfl
  simp only [buildVertMap, snapResult, h]
  with_unfolding_all decide

theorem C2_group_replacement_witness :
    ∃ rg : VGroup, (transfer_mesh_data srcW tgtW).vertex_groups[0]? = some rg ∧
      rg.name = "Weights" ∧ rg.w 0 = some (1/2) ∧ rg.w 1 = none := by
  obtain ⟨rg, h1, h2, h3⟩ := (C2_group_replacement srcW tgtW).2.1 0 0 0
    ({ name := "Weights", w := fun i => if i = 0 then some (1/2) else none }) rfl
    (vmW ▸ (by decide : ((0 : Nat), (0 : Nat)) ∈ [((0 : Nat), (0 : Nat)), (1, 1), (2, 2)]))
  obtain ⟨rg', h1', _, h3'⟩ := (C2_group_replacement srcW tgtW).2.1 0 1 1
    ({ name := "Weights", w := fun i => if i = 0 then some (1/2) else none }) rfl
    (vmW ▸ (by decide : ((1 : Nat), (1 : Nat)) ∈ [((0 : Nat), (0 : Nat)), (1, 1), (2, 2)]))
  rw [h1] at h1'
  cases h1'
  refine ⟨rg, h1, h2, ?_, ?_⟩
  · rw [h3]; with_unfolding_all decide
  · rw [h3']; with_unfolding_all decide

/-! ## Shape-key machinery lemmas -/

theorem V3.sub_self' (v : V3) : V3.sub v v = dfltV := by
  cases v; simp [V3.sub, dfltV]

theorem V3.smul_dflt (c : ℚ) : V3.smul c dfltV = dfltV := by
  simp [V3.smul, dfltV]

theorem V3.add_dflt (v : V3) : V3.add v dfltV = v := by
  cases v; simp [V3.add, dfltV]

theorem writeMapped_name (skSrc : KeyBlock) :
    ∀ (vm : List (Nat × Nat)) (k : KeyBlock), (writeMapped skSrc vm k).name = k.name
  | [], _ => rfl
  | p :: rest, k => by
    rw [writeMapped, List.foldl_cons]
    exact writeMapped_name skSrc rest _

theorem writeMapped_rel (skSrc : KeyBlock) :
    ∀ (vm : List (Nat × Nat)) (k : KeyBlock), (writeMapped skSrc vm k).rel = k.rel
  | [], _ => rfl
  | p :: rest, k => by
    rw [writeMapped, List.foldl_cons]
    exact writeMapped_rel skSrc rest _

theorem writeMapped_length (skSrc : KeyBlock) :
    ∀ (vm : List (Nat × Nat)) (k : KeyBlock),
      (writeMapped skSrc vm k).data.length = k.data.length
  | [], _ => rfl
  | p :: rest, k => by
    rw [writeMapped, List.foldl_cons]
    exact (writeMapped_length skSrc rest _).trans (by simp)

theorem writeMapped_get_of_not_mem (skSrc : KeyBlock) (t : Nat) :
    ∀ (vm : List (Nat × Nat)) (k : KeyBlock), (∀ p ∈ vm, p.1 ≠ t) →
      (writeMapped skSrc vm k).data[t]? = k.data[t]?
  | [], _, _ => rfl
  | p :: rest, k, h => by
    rw [writeMapped, List.foldl_cons]
    rw [show List.foldl _ _ rest = writeMapped skSrc rest _ from rfl]
    rw [writeMapped_get_of_not_mem skSrc t rest _
      (fun q hq => h q (List.mem_cons_of_mem _ hq))]
    dsimp only
    rw [List.getElem?_set_ne (h p (List.mem_cons_self _ _))]

theorem writeMapped_get_of_mem (skSrc : KeyBlock) (t s : Nat) :
    ∀ (vm : List (Nat × Nat)) (k : KeyBlock), ((vm.map Prod.fst).Nodup) → (t, s) ∈ vm →
      t < k.data.length →
      (writeMapped skSrc vm k).data[t]? = some (skSrc.data.getD s dfltV)
  | [], _, _, hmem, _ => by cases hmem
  | p :: rest, k, hnd, hmem, hlen => by
    simp only [List.map_cons, List.nodup_cons] at hnd
    rw [writeMapped, List.foldl_cons]
    rw [show List.foldl _ _ rest = writeMapped skSrc rest _ from rfl]
    by_cases hp : p.1 = t
    · have hps : p = (t, s) := by
        rcases List.mem_cons.mp hmem with h | h
        · exact h.symm
        · exact absurd (hp ▸ (List.mem_map.mpr ⟨(t, s), h, rfl⟩)) hnd.1
      subst hps
      have hrest : ∀ q ∈ rest, q.1 ≠ t := by
        intro q hq hqt
        exact hnd.1 (hqt ▸ (List.mem_map.mpr ⟨q, hq, rfl⟩))
      rw [writeMapped_get_of_not_mem skSrc t rest _ hrest]
      dsimp only
      exact List.getElem?_set_self hlen
    · have hmem' : (t, s) ∈ rest := by
        rcases List.mem_cons.mp hmem with h | h
        · exact absurd (by rw [← h]) hp
        · exact h
      exact writeMapped_get_of_mem skSrc t s rest _ hnd.2 hmem' (by simpa using hlen)

theorem relOf_mem {keys : List KeyBlock} (k : KeyBlock) (hne : keys ≠ []) :
    relOf keys k ∈ keys := by
  rw [relOf]
  rcases hg : keys[k.rel.getD 0]? with _ | r
  · cases keys with
    | nil => exact absurd rfl hne
    | cons a l => exact List.mem_cons_self _ _
  · exact List.getElem?_mem hg

theorem foldl_add_of_contrib_dflt {α : Type _} (contrib : α → V3) :
    ∀ (l : List α) (b : V3), (∀ k ∈ l, contrib k = dfltV) →
      l.foldl (fun acc k => V3.add acc (contrib k)) b = b
  | [], _, _ => rfl
  | a :: l, b, h => by
    rw [List.foldl_cons, h a (List.mem_cons_self _ _), V3.add_dflt]
    exact foldl_add_of_contrib_dflt contrib l b (fun k hk => h k (List.mem_cons_of_mem _ hk))

theorem mixAt_of_const {ob : Obj} {keys : List KeyBlock} {t : Nat} (hne : keys ≠ [])
    (hall : ∀ k ∈ keys, k.data.getD t dfltV = (keys.headD dfltKB).data.getD t dfltV) :
    mixAt ob keys t = (keys.headD dfltKB).data.getD t dfltV := by
  rw [mixAt]
  exact foldl_add_of_contrib_dflt
    (fun k => V3.smul (keyFactor ob k t)
      (V3.sub (k.data.getD t dfltV) ((relOf keys k).data.getD t dfltV)))
    (keys.drop 1) _
    (fun k hk => by
      dsimp only
      rw [hall k (List.mem_of_mem_drop hk), hall (relOf keys k) (relOf_mem k hne),
        V3.sub_self', V3.smul_dflt])

theorem skNewKey_name {skeys : List KeyBlock} {vm : List (Nat × Nat)} {t2 : Obj}
    {keys : List KeyBlock} {kbm : List (String × Nat)} {skSrc : KeyBlock}
    (h : skSrc.name ∉ keys.map KeyBlock.name) :
    (skNewKey skeys vm t2 keys kbm skSrc).name = skSrc.name := by
  rw [skNewKey]
  rcases skSrc.rel with _ | r
  · dsimp only
    rw [writeMapped_name]
    exact freshName_of_not_mem h
  · dsimp only
    rcases List.lookup (skeys.getD r dfltKB).name (kbm ++ [(skSrc.name, keys.length)]) with _ | j
    · dsimp only
      rw [writeMapped_name]
      exact freshName_of_not_mem h
    · dsimp only
      rw [writeMapped_name]
      exact freshName_of_not_mem h

theorem skNewKey_metadata (skeys : List KeyBlock) (vm : List (Nat × Nat)) (t2 : Obj)
    (keys : List KeyBlock) (kbm : List (String × Nat)) (skSrc : KeyBlock) :
    (skNewKey skeys vm t2 keys kbm skSrc).value = skSrc.value ∧
    (skNewKey skeys vm t2 keys kbm skSrc).slider_min = skSrc.slider_min ∧
    (skNewKey skeys vm t2 keys kbm skSrc).slider_max = skSrc.slider_max ∧
    (skNewKey skeys vm t2 keys kbm skSrc).mute = skSrc.mute ∧
    (skNewKey skeys vm t2 keys kbm skSrc).interpolation = skSrc.interpolation ∧
    (skNewKey skeys vm t2 keys kbm skSrc).vertex_group = skSrc.vertex_group := by
  rw [skNewKey]
  rcases skSrc.rel with _ | r
  · exact ⟨rfl, rfl, rfl, rfl, rfl, rfl⟩
  · dsimp only
    rcases List.lookup (skeys.getD r dfltKB).name (kbm ++ [(skSrc.name, keys.length)]) with _ | j
    · exact ⟨rfl, rfl, rfl, rfl, rfl, rfl⟩
    · exact ⟨rfl, rfl, rfl, rfl, rfl, rfl⟩

theorem skNewKey_data (skeys : List KeyBlock) (vm : List (Nat × Nat)) (t2 : Obj)
    (keys : List KeyBlock) (kbm : List (String × Nat)) (skSrc : KeyBlock) :
    (skNewKey skeys vm t2 keys kbm skSrc).data =
      (writeMapped skSrc vm
        ({ dfltKB with
           name := freshName (keys.map KeyBlock.name) skSrc.name,
           data := mixData t2 keys,
           rel := some 0 })).data := by
  rw [skNewKey]
  rcases skSrc.rel with _ | r
  · rfl
  · dsimp only
    rcases List.lookup (skeys.getD r dfltKB).name (kbm ++ [(skSrc.name, keys.length)]) with _ | j
    · rfl
    · rfl

theorem skNewKey_rel (skeys : List KeyBlock) (vm : List (Nat × Nat)) (t2 : Obj)
    (keys : List KeyBlock) (kbm : List (String × Nat)) (skSrc : KeyBlock) :
    (skNewKey skeys vm t2 keys kbm skSrc).rel =
      (match skSrc.rel with
       | none => some 0
       | some r =>
         match List.lookup (skeys.getD r dfltKB).name (kbm ++ [(skSrc.name, keys.length)]) with
         | some j => some j
         | none => some 0) := by
  rw [skNewKey]
  rcases skSrc.rel with _ | r
  · dsimp only
    rw [writeMapped_rel]
  · dsimp only
    rcases List.lookup (skeys.getD r dfltKB).name (kbm ++ [(skSrc.name, keys.length)]) with _ | j
    · dsimp only
      rw [writeMapped_rel]
    · rfl

theorem skNewKey_data_length (skeys : List KeyBlock) (vm : List (Nat × Nat)) (t2 : Obj)
    (keys : List KeyBlock) (kbm : List (String × Nat)) (skSrc : KeyBlock) :
    (skNewKey skeys vm t2 keys kbm skSrc).data.length = t2.verts.length := by
  rw [skNewKey_data, writeMapped_length]
  simp [mixData]

theorem skNewKey_get_of_mem (skeys : List KeyBlock) (vm : List (Nat × Nat)) (t2 : Obj)
    (keys : List KeyBlock) (kbm : List (String × Nat)) (skSrc : KeyBlock)
    {t s : Nat} (hnd : (vm.map Prod.fst).Nodup) (hmem : (t, s) ∈ vm)
    (ht : t < t2.verts.length) :
    (skNewKey skeys vm t2 keys kbm skSrc).data[t]? = some (skSrc.data.getD s dfltV) := by
  rw [skNewKey_data]
  exact writeMapped_get_of_mem skSrc t s vm _ hnd hmem (by simpa [mixData] using ht)

theorem skNewKey_get_of_not_mem (skeys : List KeyBlock) (vm : List (Nat × Nat)) (t2 : Obj)
    (keys : List KeyBlock) (kbm : List (String × Nat)) (skSrc : KeyBlock)
    {t : Nat} (hunm : ∀ p ∈ vm, p.1 ≠ t) :
    (skNewKey skeys vm t2 keys kbm skSrc).data[t]? = (mixData t2 keys)[t]? := by
  rw [skNewKey_data]
  exact writeMapped_get_of_not_mem skSrc t vm _ hunm

theorem skFold_length (skeys : List KeyBlock) (vm : List (Nat × Nat)) (t2 : Obj) :
    ∀ (l keys : List KeyBlock) (kbm : List (String × Nat)),
      ((l.foldl (skStep skeys vm t2) (keys, kbm)).1).length = keys.length + l.length
  | [], _, _ => rfl
  | skSrc :: l', keys, kbm => by
    rw [List.foldl_cons, skStep]
    rw [skFold_length skeys vm t2 l']
    simp
    omega

theorem skFold_get_old (skeys : List KeyBlock) (vm : List (Nat × Nat)) (t2 : Obj) :
    ∀ (l keys : List KeyBlock) (kbm : List (String × Nat)) (j : Nat), j < keys.length →
      ((l.foldl (skStep skeys vm t2) (keys, kbm)).1)[j]? = keys[j]?
  | [], _, _, _, _ => rfl
  | skSrc :: l', keys, kbm, j, hj => by
    rw [List.foldl_cons, skStep]
    rw [skFold_get_old skeys vm t2 l' _ _ j (by simp; omega)]
    exact List.getElem?_append_left hj

/-- The intermediate target state after the position snap and the group
transfer, on which the shape-key phase runs. -/
def t2Of (source target : Obj) : Obj :=
  { target with
    verts := snapPositions source target,
    vertex_groups := transferGroups source (buildVertMap source target) }

theorem transfer_eq (source target : Obj) :
    transfer_mesh_data source target =
      shapeKeyPhase source (buildVertMap source target) (t2Of source target) := rfl

/-- The reference key created by `shape_key_add` on a key-less object. -/
def refKeyOf (t2 : Obj) (nm : String) : KeyBlock :=
  { dfltKB with name := nm, data := t2.verts, rel := some 0 }

theorem shapeKeyPhase_of_none {source : Obj} {vm : List (Nat × Nat)} {t2 : Obj}
    {skeys : List KeyBlock} (hsk : source.shape_keys = some skeys)
    (ht2 : t2.shape_keys = none) :
    shapeKeyPhase source vm t2 =
      { t2 with
        shape_keys := some ((skeys.drop 1).foldl (skStep skeys vm t2)
          ([refKeyOf t2 (skeys.headD dfltKB).name], [((skeys.headD dfltKB).name, 0)])).1,
        active_shape_key_index := source.active_shape_key_index } := by
  rw [shapeKeyPhase, hsk]
  dsimp only
  rw [ht2]
  dsimp only
  rw [shapeKeyAdd, renameHead]
  dsimp only
  rw [freshName_of_not_mem (by simp)]
  rfl

theorem headD_mem {α : Type _} {l : List α} (h : l ≠ []) (d : α) : l.headD d ∈ l := by
  cases l with
  | nil => exact absurd rfl h
  | cons a t => exact List.mem_cons_self _ _

theorem headD_append {α : Type _} {l : List α} (h : l ≠ []) (x d : α) :
    (l ++ [x]).headD d = l.headD d := by
  cases l with
  | nil => exact absurd rfl h
  | cons a t => rfl

theorem mixData_get (t2 : Obj) (keys : List KeyBlock) (t : Nat) :
    (mixData t2 keys)[t]? =
      if t < t2.verts.length then some (mixAt t2 keys t) else none := by
  rw [mixData, List.getElem?_map]
  by_cases ht : t < t2.verts.length
  · rw [List.getElem?_range ht, if_pos ht]
    rfl
  · rw [if_neg ht, List.getElem?_eq_none (by simpa using ht), Option.map_none']

/-- Along the key-creation fold, at a target vertex `t` no mapping pair
writes, every key keeps the reference datum: from-mix initialisation adds
only zero deltas there.  The conclusion holds for every key of the result. -/
theorem skFold_const (skeys : List KeyBlock) (vm : List (Nat × Nat)) (t2 : Obj) (t : Nat)
    (hunm : ∀ p ∈ vm, p.1 ≠ t) :
    ∀ (l keys : List KeyBlock) (kbm : List (String × Nat)), keys ≠ [] →
      (∀ k ∈ keys, k.data[t]? = t2.verts[t]?) →
      ∀ k ∈ (l.foldl (skStep skeys vm t2) (keys, kbm)).1, k.data[t]? = t2.verts[t]?
  | [], keys, kbm, _, hall => hall
  | skSrc :: l', keys, kbm, hne, hall => by
    rw [List.foldl_cons, skStep]
    dsimp only
    have hK0 : (skNewKey skeys vm t2 keys kbm skSrc).data[t]? = t2.verts[t]? := by
      rw [skNewKey_get_of_not_mem skeys vm t2 keys kbm skSrc hunm, mixData_get]
      by_cases ht : t < t2.verts.length
      · rw [if_pos ht]
        have hv : ∀ k ∈ keys, k.data.getD t dfltV = (keys.headD dfltKB).data.getD t dfltV := by
          intro k hk
          rw [List.getD_eq_getElem?_getD, List.getD_eq_getElem?_getD, hall k hk,
            hall _ (headD_mem hne dfltKB)]
        rw [mixAt_of_const hne hv, List.getD_eq_getElem?_getD, hall _ (headD_mem hne dfltKB)]
        rw [List.getElem?_eq_getElem ht]
        rfl
      · rw [if_neg ht]
        rw [List.getElem?_eq_none (by omega)]
    refine skFold_const skeys vm t2 t hunm l' (keys ++ [skNewKey skeys vm t2 keys kbm skSrc])
      _ (by simp) ?_
    intro k hk
    rcases List.mem_append.mp hk with hk | hk
    · exact hall k hk
    · rw [List.mem_singleton.mp hk]
      exact hK0

theorem snapPositions_get_of_none {source target : Obj} {t : Nat}
    (hsnap : snapResult source target t = none) :
    (snapPositions source target)[t]? = target.verts[t]? := by
  rw [snapPositions, List.getElem?_map]
  by_cases ht : t < target.verts.length
  · rw [List.getElem?_range ht, Option.map_some', hsnap]
    dsimp only
    rw [List.getElem?_eq_getElem ht]
    exact congrArg some (List.getD_eq_getElem target.verts dfltV ht)
  · rw [List.getElem?_eq_none (by simpa using ht), Option.map_none',
      List.getElem?_eq_none (by omega)]

/-- Claim C8: a target vertex whose nearest-surface query returns no face
(which happens exactly when the source has no triangles) is skipped entirely:
it gets no vertex-map entry, its position is not rewritten, it receives no
group weights, and its shape-key data stays at the reference (= its own
unchanged position); the transfer still runs to completion on the remaining
vertices. -/
theorem C8_unmapped_vertex_skipped (source target : Obj) (t : Nat)
    (hq : findNearest source.verts (triangulate source.faces)
        (localPos source target (target.verts.getD t dfltV)) = none) :
    (∀ s, (t, s) ∉ buildVertMap source target) ∧
    ((transfer_mesh_data source target).verts[t]? = target.verts[t]?) ∧
    (∀ g ∈ (transfer_mesh_data source target).vertex_groups, g.w t = none) ∧
    (∀ skeys, source.shape_keys = some skeys → target.shape_keys = none →
      ∀ k ∈ ((transfer_mesh_data source target).shape_keys.getD []),
        k.data[t]? = target.verts[t]?) := by
  have hsnap : snapResult source target t = none := by
    simp only [snapResult]
    rw [hq]
  have ha : ∀ s, (t, s) ∉ buildVertMap source target := by
    intro s hmem
    have := (mem_buildVertMap.mp hmem).2
    rw [hsnap] at this
    cases this
  have hunm : ∀ p ∈ buildVertMap source target, p.1 ≠ t := by
    rintro ⟨t', s'⟩ hp rfl
    exact ha s' hp
  have hb : (transfer_mesh_data source target).verts[t]? = target.verts[t]? := by
    rw [transfer_verts]
    exact snapPositions_get_of_none hsnap
  refine ⟨ha, hb, ?_, ?_⟩
  · intro g hg
    rw [transfer_vertex_groups, transferGroups] at hg
    obtain ⟨sg, _, rfl⟩ := List.mem_map.mp hg
    rw [foldl_groupStep_w_of_not_mem sg t _ _ hunm]
  · intro skeys hsk ht2 k hk
    rw [transfer_eq, shapeKeyPhase_of_none hsk (by rw [t2Of]; exact ht2)] at hk
    dsimp only at hk
    rw [Option.getD_some] at hk
    have hconst := skFold_const skeys (buildVertMap source target) (t2Of source target) t
      hunm (skeys.drop 1) [refKeyOf (t2Of source target) (skeys.headD dfltKB).name]
      [((skeys.headD dfltKB).name, 0)] (by simp) ?_ k hk
    · have hb2 : (t2Of source target).verts[t]? = target.verts[t]? :=
        snapPositions_get_of_none hsnap
      exact hconst.trans hb2
    · intro k' hk'
      rw [List.mem_singleton.mp hk']
      rfl

/-- C8 witness meshes: the source of `srcW` with its faces removed (no
triangles at all), against the unit-triangle target. -/
def srcE : Obj := { srcW with faces := [] }

theorem C8_unmapped_vertex_skipped_witness :
    (∀ s, (0, s) ∉ buildVertMap srcE tgtW) ∧
    ((transfer_mesh_data srcE tgtW).verts[0]? = some ⟨0, 0, 0⟩) ∧
    (∀ g ∈ (transfer_mesh_data srcE tgtW).vertex_groups, g.w 0 = none) ∧
    (∀ k ∈ ((transfer_mesh_data srcE tgtW).shape_keys.getD []),
      k.data[0]? = some ⟨0, 0, 0⟩) := by
  obtain ⟨ha, hb, hc, hd⟩ := C8_unmapped_vertex_skipped srcE tgtW 0 rfl
  refine ⟨ha, by rw [hb]; rfl, hc, ?_⟩
  intro k hk
  rw [hd [basisW, smileW] rfl rfl k hk]
  rfl

theorem kbm_shift (kbm : List (String × Nat)) (base : Nat) (skSrc : KeyBlock)
    (l' : List KeyBlock) (m : Nat) :
    (kbm ++ [(skSrc.name, base)]) ++
      (List.range m).map (fun i => ((l'.getD i dfltKB).name, (base + 1) + i)) =
    kbm ++ (List.range (m + 1)).map
      (fun i => (((skSrc :: l').getD i dfltKB).name, base + i)) := by
  rw [List.range_succ_eq_map, List.map_cons, List.map_map, List.append_assoc]
  congr 1
  rw [List.singleton_append]
  refine List.cons_eq_cons.mpr ⟨by simp, ?_⟩
  refine List.map_congr_left (fun i _ => ?_)
  simp only [Function.comp_apply, List.getD_cons_succ]
  have hba : base + 1 + i = base + (i + 1) := by omega
  rw [hba]

/-- Characterisation of the `j`-th key created by the key-replay loop (lines
90-107), provided the source key names collide neither with each other nor
with the keys already present: the key sits right after the pre-existing
ones, carries the source key's name and scalar metadata, its data has the
target's vertex count with every mapped vertex overwritten from the source
key, and its relative pointer follows the incrementally built name lookup
(defaulting to the reference key). -/
theorem skFold_get_new (skeys : List KeyBlock) (vm : List (Nat × Nat)) (t2 : Obj) :
    ∀ (l keys : List KeyBlock) (kbm : List (String × Nat)) (j : Nat), j < l.length →
      (∀ i, i < l.length → (l.getD i dfltKB).name ∉ keys.map KeyBlock.name) →
      (∀ i1 i2, i1 < i2 → i2 < l.length →
        (l.getD i1 dfltKB).name ≠ (l.getD i2 dfltKB).name) →
      ∃ K : KeyBlock,
        ((l.foldl (skStep skeys vm t2) (keys, kbm)).1)[keys.length + j]? = some K ∧
        K.name = (l.getD j dfltKB).name ∧
        K.value = (l.getD j dfltKB).value ∧
        K.slider_min = (l.getD j dfltKB).slider_min ∧
        K.slider_max = (l.getD j dfltKB).slider_max ∧
        K.mute = (l.getD j dfltKB).mute ∧
        K.interpolation = (l.getD j dfltKB).interpolation ∧
        K.vertex_group = (l.getD j dfltKB).vertex_group ∧
        K.data.length = t2.verts.length ∧
        (∀ t s, (t, s) ∈ vm → (vm.map Prod.fst).Nodup → t < t2.verts.length →
          K.data[t]? = some ((l.getD j dfltKB).data.getD s dfltV)) ∧
        K.rel = (match (l.getD j dfltKB).rel with
                 | none => some 0
                 | some r =>
                   match List.lookup (skeys.getD r dfltKB).name
                       (kbm ++ (List.range (j + 1)).map
                         (fun i => ((l.getD i dfltKB).name, keys.length + i))) with
                   | some v => some v
                   | none => some 0)
  | [], _, _, j, hj, _, _ => absurd hj (by simp)
  | skSrc :: l', keys, kbm, j, hj, hdisj, hnames => by
    rw [List.foldl_cons, skStep]
    dsimp only
    have hK0name : (skNewKey skeys vm t2 keys kbm skSrc).name = skSrc.name :=
      skNewKey_name (by simpa using hdisj 0 (by simp))
    cases j with
    | zero =>
      refine ⟨skNewKey skeys vm t2 keys kbm skSrc, ?_, ?_, ?_, ?_, ?_, ?_, ?_, ?_, ?_, ?_, ?_⟩
      · rw [Nat.add_zero, skFold_get_old skeys vm t2 l' _ _ keys.length (by simp)]
        exact List.getElem?_concat_length _ _
      · rw [List.getD_cons_zero]; exact hK0name
      · rw [List.getD_cons_zero]; exact (skNewKey_metadata skeys vm t2 keys kbm skSrc).1
      · rw [List.getD_cons_zero]; exact (skNewKey_metadata skeys vm t2 keys kbm skSrc).2.1
      · rw [List.getD_cons_zero]; exact (skNewKey_metadata skeys vm t2 keys kbm skSrc).2.2.1
      · rw [List.getD_cons_zero]; exact (skNewKey_metadata skeys vm t2 keys kbm skSrc).2.2.2.1
      · rw [List.getD_cons_zero]; exact (skNewKey_metadata skeys vm t2 keys kbm skSrc).2.2.2.2.1
      · rw [List.getD_cons_zero]; exact (skNewKey_metadata skeys vm t2 keys kbm skSrc).2.2.2.2.2
      · exact skNewKey_data_length skeys vm t2 keys kbm skSrc
      · intro t s hmem hnd ht
        rw [List.getD_cons_zero]
        exact skNewKey_get_of_mem skeys vm t2 keys kbm skSrc hnd hmem ht
      · rw [List.getD_cons_zero, skNewKey_rel]
        have hl : (List.range (0 + 1)).map
            (fun i => (((skSrc :: l').getD i dfltKB).name, keys.length + i)) =
            [(skSrc.name, keys.length)] := by
          rw [show List.range (0 + 1) = [0] from rfl, List.map_singleton]
          simp
        rw [hl]
    | succ jj =>
      have hdisj' : ∀ i, i < l'.length →
          (l'.getD i dfltKB).name ∉ (keys ++ [skNewKey skeys vm t2 keys kbm skSrc]).map KeyBlock.name := by
        intro i hi
        rw [List.map_append, List.map_singleton, hK0name]
        rw [List.mem_append, List.mem_singleton]
        push_neg
        constructor
        · simpa using hdisj (i + 1) (by simpa using Nat.succ_lt_succ hi)
        · have := hnames 0 (i + 1) (Nat.succ_pos i) (by simpa using Nat.succ_lt_succ hi)
          simp only [List.getD_cons_zero, List.getD_cons_succ] at this
          exact fun h => this h.symm
      have hnames' : ∀ i1 i2, i1 < i2 → i2 < l'.length →
          (l'.getD i1 dfltKB).name ≠ (l'.getD i2 dfltKB).name := by
        intro i1 i2 h12 hi2
        have := hnames (i1 + 1) (i2 + 1) (Nat.succ_lt_succ h12) (by simpa using Nat.succ_lt_succ hi2)
        simpa using this
      obtain ⟨K, hK, h1, h2, h3, h4, h5, h6, h7, h8, h9, h10⟩ :=
        skFold_get_new skeys vm t2 l' (keys ++ [skNewKey skeys vm t2 keys kbm skSrc])
          (kbm ++ [(skSrc.name, keys.length)]) jj (by simpa using hj) hdisj' hnames'
      refine ⟨K, ?_, ?_, ?_, ?_, ?_, ?_, ?_, ?_, h8, ?_, ?_⟩
      · have hidx : keys.length + (jj + 1) =
            (keys ++ [skNewKey skeys vm t2 keys kbm skSrc]).length + jj := by
          simp
          omega
        rw [hidx]
        exact hK
      · rw [List.getD_cons_succ]; exact h1
      · rw [List.getD_cons_succ]; exact h2
      · rw [List.getD_cons_succ]; exact h3
      · rw [List.getD_cons_succ]; exact h4
      · rw [List.getD_cons_succ]; exact h5
      · rw [List.getD_cons_succ]; exact h6
      · rw [List.getD_cons_succ]; exact h7
      · intro t s hmem hnd ht
        rw [List.getD_cons_succ]
        exact h9 t s hmem hnd ht
      · rw [List.getD_cons_succ]
        rw [h10]
        have hlen : (keys ++ [skNewKey skeys vm t2 keys kbm skSrc]).length =
            keys.length + 1 := by simp
        rw [hlen]
        rw [kbm_shift kbm keys.length skSrc l' (jj + 1)]

theorem lookup_of_mem_of_nodup {β : Type _} :
    ∀ (l : List (String × β)) (a : String) (v : β), (l.map Prod.fst).Nodup →
      (a, v) ∈ l → List.lookup a l = some v
  | [], _, _, _, hmem => by cases hmem
  | (b, w) :: rest, a, v, hnd, hmem => by
    simp only [List.map_cons, List.nodup_cons] at hnd
    rcases List.mem_cons.mp hmem with h | h
    · obtain ⟨rfl, rfl⟩ := Prod.mk.injEq .. ▸ h
      simp [List.lookup]
    · have hba : b ≠ a := by
        rintro rfl
        exact hnd.1 (List.mem_map.mpr ⟨(b, v), h, rfl⟩)
      rw [List.lookup, beq_eq_false_iff_ne.mpr (fun e => hba e.symm)]
      exact lookup_of_mem_of_nodup rest a v hnd.2 h

theorem lookup_eq_none_of_not_mem {β : Type _} :
    ∀ (l : List (String × β)) (a : String), a ∉ l.map Prod.fst →
      List.lookup a l = none
  | [], _, _ => rfl
  | (b, w) :: rest, a, h => by
    simp only [List.map_cons, List.mem_cons] at h
    push_neg at h
    rw [List.lookup, beq_eq_false_iff_ne.mpr h.1]
    exact lookup_eq_none_of_not_mem rest a h.2

theorem nodup_names_getD_ne {ks : List KeyBlock} (hnd : (ks.map KeyBlock.name).Nodup)
    {i1 i2 : Nat} (h12 : i1 ≠ i2) (hi1 : i1 < ks.length) (hi2 : i2 < ks.length) :
    (ks.getD i1 dfltKB).name ≠ (ks.getD i2 dfltKB).name := by
  intro h
  rw [List.getD_eq_getElem ks dfltKB hi1, List.getD_eq_getElem ks dfltKB hi2] at h
  have hl1 : i1 < (ks.map KeyBlock.name).length := by simpa using hi1
  have hl2 : i2 < (ks.map KeyBlock.name).length := by simpa using hi2
  have h1 : (ks.map KeyBlock.name)[i1] = (ks.map KeyBlock.name)[i2] := by
    rw [List.getElem_map, List.getElem_map]
    exact h
  exact h12 ((hnd.getElem_inj_iff).mp h1)

theorem getD_drop_one (ks : List KeyBlock) (i : Nat) :
    (ks.drop 1).getD i dfltKB = ks.getD (i + 1) dfltKB := by
  rw [List.getD_eq_getElem?_getD, List.getD_eq_getElem?_getD, List.getElem?_drop,
    Nat.add_comm]

theorem renameHead_length (ks : List KeyBlock) (nm : String) :
    (renameHead ks nm).length = ks.length := by
  cases ks <;> rfl

theorem renameHead_get_succ (ks : List KeyBlock) (nm : String) (i : Nat) :
    (renameHead ks nm)[i + 1]? = ks[i + 1]? := by
  cases ks <;> rfl

theorem renameHead_get_zero (k : KeyBlock) (rest : List KeyBlock) (nm : String) :
    (renameHead (k :: rest) nm)[0]? =
      some { k with name := freshName (rest.map KeyBlock.name) nm } := by
  rw [renameHead]
  simp

theorem shapeKeyPhase_of_some {source : Obj} {vm : List (Nat × Nat)} {t2 : Obj}
    {skeys tks : List KeyBlock} (hsk : source.shape_keys = some skeys)
    (ht2 : t2.shape_keys = some tks) :
    shapeKeyPhase source vm t2 =
      { t2 with
        shape_keys := some ((skeys.drop 1).foldl (skStep skeys vm t2)
          (renameHead tks (skeys.headD dfltKB).name, [((skeys.headD dfltKB).name, 0)])).1,
        active_shape_key_index := source.active_shape_key_index } := by
  rw [shapeKeyPhase, hsk]
  dsimp only
  rw [ht2]

theorem snapPositions_get_of_some {source target : Obj} {t s : Nat}
    (hsnap : snapResult source target t = some s) (ht : t < target.verts.length) :
    (snapPositions source target)[t]? = some (source.verts.getD s dfltV) := by
  rw [snapPositions, List.getElem?_map, List.getElem?_range ht, Option.map_some', hsnap]

/-! ## Claim C3 (corrected): pre-existing target shape keys are retained -/

def basisJ : KeyBlock :=
  { name := "B0", data := [⟨0,0,0⟩, ⟨1,0,0⟩, ⟨0,1,0⟩], value := 0, slider_min := 0,
    slider_max := 1, mute := false, interpolation := "KEY_LINEAR", vertex_group := "",
    rel := some 0 }

def junkK : KeyBlock :=
  { name := "Junk", data := [⟨0,0,0⟩, ⟨1,0,0⟩, ⟨0,1,0⟩], value := 0, slider_min := 0,
    slider_max := 1, mute := false, interpolation := "KEY_LINEAR", vertex_group := "",
    rel := some 0 }

/-- A target that still carries shape keys of its own (reference "B0" plus a
key "Junk") when the transfer runs. -/
def tgtJ : Obj := { tgtW with shape_keys := some [basisJ, junkK] }

/-- Counterexample to claim C3 as stated: the source has shape keys and the
target carries a pre-existing key "Junk" that no source key bears, yet after
`transfer_mesh_data` the target still holds a key named "Junk" — the transfer
never removes pre-existing target shape keys (lines 74-85 only ensure and
rename a reference key). -/
theorem C3_counterexample :
    srcW.shape_keys.isSome = true ∧
    "Junk" ∈ ((tgtJ.shape_keys.getD []).map KeyBlock.name) ∧
    "Junk" ∉ ((srcW.shape_keys.getD []).map KeyBlock.name) ∧
    "Junk" ∈ (((transfer_mesh_data srcW tgtJ).shape_keys.getD []).map KeyBlock.name) := by
  refine ⟨rfl, by simp [tgtJ, tgtW, basisJ, junkK], by simp [srcW, basisW, smileW], ?_⟩
  rw [transfer_eq,
    shapeKeyPhase_of_some (show srcW.shape_keys = some [basisW, smileW] from rfl)
      (show (t2Of srcW tgtJ).shape_keys = some [basisJ, junkK] from rfl)]
  dsimp only
  rw [Option.getD_some]
  have hget : ((([basisW, smileW].drop 1).foldl
      (skStep [basisW, smileW] (buildVertMap srcW tgtJ) (t2Of srcW tgtJ))
      (renameHead [basisJ, junkK] (([basisW, smileW].headD dfltKB).name),
       [((([basisW, smileW].headD dfltKB).name), 0)])).1)[1]? = some junkK := by
    rw [skFold_get_old _ _ _ _ _ _ 1 (by rw [renameHead_length]; simp)]
    exact (renameHead_get_succ [basisJ, junkK] _ 0).trans (by simp)
  exact List.mem_map.mpr ⟨junkK, List.getElem?_mem hget, rfl⟩

/-- Claim C3 as amended: when the source has no shape keys the shape-key phase
is skipped and the target's shape-key state (keys and active index) is
untouched.  When the source has shape keys, pre-existing target keys are NOT
removed: the target's reference key is renamed to the source's reference name
(uniquified against the other key names), every pre-existing non-reference key
is retained at its index, and one re-created key per non-reference source key
is appended after them. -/
theorem C3_shape_key_retention (source target : Obj) :
    (source.shape_keys = none →
      (transfer_mesh_data source target).shape_keys = target.shape_keys ∧
      (transfer_mesh_data source target).active_shape_key_index =
        target.active_shape_key_index) ∧
    (∀ skeys tks, source.shape_keys = some skeys → target.shape_keys = some tks →
      tks ≠ [] →
      ∃ rk, (transfer_mesh_data source target).shape_keys = some rk ∧
        rk.length = tks.length + (skeys.drop 1).length ∧
        (∀ i, 1 ≤ i → i < tks.length → rk[i]? = tks[i]?) ∧
        (rk[0]?).map KeyBlock.name =
          some (freshName ((tks.drop 1).map KeyBlock.name) ((skeys.headD dfltKB).name))) := by
  constructor
  · intro hsk
    rw [transfer_eq, shapeKeyPhase, hsk]
    exact ⟨rfl, rfl⟩
  · intro skeys tks hsk ht2 hne
    rw [transfer_eq, shapeKeyPhase_of_some hsk
      (show (t2Of source target).shape_keys = some tks from ht2)]
    refine ⟨_, rfl, ?_, ?_, ?_⟩
    · rw [skFold_length, renameHead_length]
    · intro i h1 hi
      obtain ⟨i', rfl⟩ : ∃ i', i = i' + 1 := ⟨i - 1, by omega⟩
      rw [skFold_get_old _ _ _ _ _ _ _ (by rw [renameHead_length]; omega)]
      exact renameHead_get_succ tks _ i'
    · rw [skFold_get_old _ _ _ _ _ _ 0 (by rw [renameHead_length]; exact List.length_pos.mpr hne)]
      cases tks with
      | nil => exact absurd rfl hne
      | cons k rest =>
        rw [renameHead_get_zero]
        rfl

theorem C3_shape_key_retention_witness :
    ∃ rk, (transfer_mesh_data srcW tgtJ).shape_keys = some rk ∧
      rk.length = 3 ∧ rk[1]? = some junkK ∧
      (rk[0]?).map KeyBlock.name = some "Basis" := by
  obtain ⟨rk, h1, h2, h3, h4⟩ := (C3_shape_key_retention srcW tgtJ).2 [basisW, smileW]
    [basisJ, junkK] rfl rfl (by simp)
  refine ⟨rk, h1, ?_, ?_, ?_⟩
  · rw [h2]; rfl
  · have := h3 1 (by omega) (by simp)
    simpa using this
  · rw [h4]
    rfl

theorem headD_of_get0 {α : Type _} {l : List α} {x d : α} (h : l[0]? = some x) :
    l.headD d = x := by
  cases l with
  | nil => simp at h
  | cons a t => simp at h; simpa using h

theorem snapPositions_length (source target : Obj) :
    (snapPositions source target).length = target.verts.length := by
  simp [snapPositions]

theorem headD_name_getD {skeys : List KeyBlock} (hne : skeys ≠ []) :
    (skeys.headD dfltKB).name = (skeys.getD 0 dfltKB).name := by
  cases skeys with
  | nil => exact absurd rfl hne
  | cons a t => rfl

/-- Claim C4: with a fresh (key-less) target, for every non-reference source
shape key a same-named target key is created; for every mapping pair `(t, s)`
the new key's position delta against the target reference at `t` equals the
source key's delta against the source reference at `s` (line 97 copies the
absolute position, and the snapped reference makes it the delta); target
vertices with no mapping entry stay at the key's default = the target
reference shape (zero delta). -/
theorem C4_shape_key_delta (source target : Obj) (skeys : List KeyBlock)
    (hsk : source.shape_keys = some skeys) (hne : skeys ≠ [])
    (ht2 : target.shape_keys = none) (hnd : (skeys.map KeyBlock.name).Nodup)
    (hb : (skeys.headD dfltKB).data = source.verts) :
    ∃ rk, (transfer_mesh_data source target).shape_keys = some rk ∧
      rk.length = skeys.length ∧
      (∀ j, 1 ≤ j → j < skeys.length →
        ∃ K, rk[j]? = some K ∧ K.name = (skeys.getD j dfltKB).name ∧
          (∀ t s, (t, s) ∈ buildVertMap source target →
            V3.sub (K.data.getD t dfltV) ((rk.headD dfltKB).data.getD t dfltV) =
              V3.sub ((skeys.getD j dfltKB).data.getD s dfltV)
                ((skeys.headD dfltKB).data.getD s dfltV)) ∧
          (∀ t, (∀ s, (t, s) ∉ buildVertMap source target) →
            K.data[t]? = (rk.headD dfltKB).data[t]?)) := by
  have hlen0 : 0 < skeys.length := List.length_pos.mpr hne
  rw [transfer_eq, shapeKeyPhase_of_none hsk
    (show (t2Of source target).shape_keys = none from ht2)]
  have hdisj : ∀ i, i < (skeys.drop 1).length → ((skeys.drop 1).getD i dfltKB).name ∉
      ([refKeyOf (t2Of source target) (skeys.headD dfltKB).name]).map KeyBlock.name := by
    intro i hi
    rw [getD_drop_one]
    rw [List.map_singleton, List.mem_singleton]
    intro h
    rw [show (refKeyOf (t2Of source target) (skeys.headD dfltKB).name).name =
      (skeys.headD dfltKB).name from rfl, headD_name_getD hne] at h
    exact nodup_names_getD_ne hnd (by omega) (by simp at hi; omega) hlen0 h
  have hnames : ∀ i1 i2, i1 < i2 → i2 < (skeys.drop 1).length →
      ((skeys.drop 1).getD i1 dfltKB).name ≠ ((skeys.drop 1).getD i2 dfltKB).name := by
    intro i1 i2 h12 hi2
    rw [getD_drop_one, getD_drop_one]
    exact nodup_names_getD_ne hnd (by omega) (by simp at hi2; omega) (by simp at hi2; omega)
  have hhead : (((skeys.drop 1).foldl
      (skStep skeys (buildVertMap source target) (t2Of source target))
      ([refKeyOf (t2Of source target) (skeys.headD dfltKB).name],
        [((skeys.headD dfltKB).name, 0)])).1).headD dfltKB =
      refKeyOf (t2Of source target) (skeys.headD dfltKB).name := by
    refine headD_of_get0 ?_
    rw [skFold_get_old _ _ _ _ _ _ 0 (by simp)]
    simp
  refine ⟨_, rfl, ?_, ?_⟩
  · rw [skFold_length]
    simp
    omega
  · intro j h1 hj
    have hj' : j - 1 < (skeys.drop 1).length := by simp; omega
    obtain ⟨K, hK, hname, _, _, _, _, _, _, hlen, hmap, _⟩ :=
      skFold_get_new skeys (buildVertMap source target) (t2Of source target)
        (skeys.drop 1) [refKeyOf (t2Of source target) (skeys.headD dfltKB).name]
        [((skeys.headD dfltKB).name, 0)] (j - 1) hj' hdisj hnames
    have hone : ([refKeyOf (t2Of source target) (skeys.headD dfltKB).name]).length +
        (j - 1) = j := by simp; omega
    rw [hone] at hK
    have hj1 : j - 1 + 1 = j := by omega
    refine ⟨K, hK, ?_, ?_, ?_⟩
    · rw [hname, getD_drop_one, hj1]
    · intro t s hts
      have htn : t < target.verts.length := (mem_buildVertMap.mp hts).1
      have hsnap := (mem_buildVertMap.mp hts).2
      have hKt : K.data[t]? = some ((skeys.getD j dfltKB).data.getD s dfltV) := by
        have := hmap t s hts (buildVertMap_keys_nodup source target)
          (by rw [show (t2Of source target).verts = snapPositions source target from rfl,
            snapPositions_length]; exact htn)
        rw [getD_drop_one, hj1] at this
        exact this
      have hKd : K.data.getD t dfltV = (skeys.getD j dfltKB).data.getD s dfltV := by
        rw [List.getD_eq_getElem?_getD, hKt]
        rfl
      have hhd : ((((skeys.drop 1).foldl
          (skStep skeys (buildVertMap source target) (t2Of source target))
          ([refKeyOf (t2Of source target) (skeys.headD dfltKB).name],
            [((skeys.headD dfltKB).name, 0)])).1).headD dfltKB).data.getD t dfltV =
          source.verts.getD s dfltV := by
        rw [hhead]
        rw [show (refKeyOf (t2Of source target) (skeys.headD dfltKB).name).data =
          snapPositions source target from rfl]
        rw [List.getD_eq_getElem?_getD, snapPositions_get_of_some hsnap htn]
        rfl
      rw [hKd, hhd, hb]
    · intro t hts
      have hunm : ∀ p ∈ buildVertMap source target, p.1 ≠ t := by
        rintro ⟨t', s'⟩ hp rfl
        exact hts s' hp
      have hconst := skFold_const skeys (buildVertMap source target) (t2Of source target)
        t hunm (skeys.drop 1)
        [refKeyOf (t2Of source target) (skeys.headD dfltKB).name]
        [((skeys.headD dfltKB).name, 0)] (by simp)
        (by intro k hk; rw [List.mem_singleton.mp hk]; rfl) K (List.getElem?_mem hK)
      rw [hconst, hhead]
      rfl

theorem C4_shape_key_delta_witness :
    ∃ rk, (transfer_mesh_data srcW tgtW).shape_keys = some rk ∧ rk.length = 2 ∧
      ∃ K, rk[1]? = some K ∧ K.name = "Smile" ∧
        V3.sub (K.data.getD 0 dfltV) ((rk.headD dfltKB).data.getD 0 dfltV) = ⟨0, 0, 1⟩ := by
  obtain ⟨rk, h1, h2, h3⟩ := C4_shape_key_delta srcW tgtW [basisW, smileW] rfl (by simp)
    rfl (by simp [basisW, smileW]) rfl
  obtain ⟨K, hK, hn, hd, _⟩ := h3 1 (by omega) (by simp)
  refine ⟨rk, h1, by rw [h2]; rfl, K, hK, by rw [hn]; rfl, ?_⟩
  have := hd 0 0 (vmW ▸ (by decide : ((0 : Nat), (0 : Nat)) ∈ [((0 : Nat), (0 : Nat)), (1, 1), (2, 2)]))
  rw [this]
  with_unfolding_all decide

/-- Claim C5: with a fresh target, each re-created key's `relative_key` is
re-linked by name through the incrementally built `key_block_map`: when the
source key's relative reference names a key not yet created (source order puts
it later) or an unknown name, the new key is left at the default, the
reference key (index 0); when the name belongs to the reference key or an
already-created key (index `i ≤ j`), the new key points at that key. -/
theorem C5_relative_key_fallback (source target : Obj) (skeys : List KeyBlock)
    (hsk : source.shape_keys = some skeys) (hne : skeys ≠ [])
    (ht2 : target.shape_keys = none) (hnd : (skeys.map KeyBlock.name).Nodup) :
    ∃ rk, (transfer_mesh_data source target).shape_keys = some rk ∧
      ∀ j, 1 ≤ j → j < skeys.length →
        ∃ K, rk[j]? = some K ∧
          ((skeys.getD j dfltKB).rel = none → K.rel = some 0) ∧
          (∀ r, (skeys.getD j dfltKB).rel = some r →
            ((∀ i, i ≤ j → i < skeys.length →
                (skeys.getD i dfltKB).name ≠ (skeys.getD r dfltKB).name) →
              K.rel = some 0) ∧
            (∀ i, i ≤ j → i < skeys.length →
              (skeys.getD i dfltKB).name = (skeys.getD r dfltKB).name →
              K.rel = some i)) := by
  have hlen0 : 0 < skeys.length := List.length_pos.mpr hne
  rw [transfer_eq, shapeKeyPhase_of_none hsk
    (show (t2Of source target).shape_keys = none from ht2)]
  have hdisj : ∀ i, i < (skeys.drop 1).length → ((skeys.drop 1).getD i dfltKB).name ∉
      ([refKeyOf (t2Of source target) (skeys.headD dfltKB).name]).map KeyBlock.name := by
    intro i hi
    rw [getD_drop_one]
    rw [List.map_singleton, List.mem_singleton]
    intro h
    rw [show (refKeyOf (t2Of source target) (skeys.headD dfltKB).name).name =
      (skeys.headD dfltKB).name from rfl, headD_name_getD hne] at h
    exact nodup_names_getD_ne hnd (by omega) (by simp at hi; omega) hlen0 h
  have hnames : ∀ i1 i2, i1 < i2 → i2 < (skeys.drop 1).length →
      ((skeys.drop 1).getD i1 dfltKB).name ≠ ((skeys.drop 1).getD i2 dfltKB).name := by
    intro i1 i2 h12 hi2
    rw [getD_drop_one, getD_drop_one]
    exact nodup_names_getD_ne hnd (by omega) (by simp at hi2; omega) (by simp at hi2; omega)
  refine ⟨_, rfl, ?_⟩
  intro j h1 hj
  have hj' : j - 1 < (skeys.drop 1).length := by simp; omega
  obtain ⟨K, hK, _, _, _, _, _, _, _, _, _, hrel⟩ :=
    skFold_get_new skeys (buildVertMap source target) (t2Of source target)
      (skeys.drop 1) [refKeyOf (t2Of source target) (skeys.headD dfltKB).name]
      [((skeys.headD dfltKB).name, 0)] (j - 1) hj' hdisj hnames
  have hone : ([refKeyOf (t2Of source target) (skeys.headD dfltKB).name]).length +
      (j - 1) = j := by simp; omega
  rw [hone] at hK
  have hj1 : j - 1 + 1 = j := by omega
  rw [getD_drop_one, hj1,
    show ([refKeyOf (t2Of source target) (skeys.headD dfltKB).name]).length = 1 from rfl]
    at hrel
  refine ⟨K, hK, ?_, ?_⟩
  · intro hnone
    rw [hnone] at hrel
    exact hrel
  · intro r hr
    rw [hr] at hrel
    dsimp only at hrel
    constructor
    · intro hno
      have hnm : (skeys.getD r dfltKB).name ∉
          (([((skeys.headD dfltKB).name, 0)] ++ (List.range j).map
            (fun i => (((skeys.drop 1).getD i dfltKB).name, 1 + i))).map Prod.fst) := by
        rw [List.map_append, List.map_singleton, List.map_map]
        rw [List.mem_append, List.mem_singleton]
        push_neg
        constructor
        · rw [headD_name_getD hne]
          exact fun h => hno 0 (by omega) hlen0 h.symm
        · intro hmem
          obtain ⟨i, hi, hni⟩ := List.mem_map.mp hmem
          rw [List.mem_range] at hi
          simp only [Function.comp_apply] at hni
          rw [getD_drop_one] at hni
          exact hno (i + 1) (by omega) (by omega) hni
      rw [lookup_eq_none_of_not_mem _ _ hnm] at hrel
      exact hrel
    · intro i hij hilen hiname
      have hndk : ((([((skeys.headD dfltKB).name, 0)] ++ (List.range j).map
          (fun i => (((skeys.drop 1).getD i dfltKB).name, 1 + i))).map Prod.fst)).Nodup := by
        rw [List.map_append, List.map_singleton, List.map_map]
        rw [List.singleton_append, List.nodup_cons]
        constructor
        · intro hmem
          obtain ⟨i', hi', hni'⟩ := List.mem_map.mp hmem
          rw [List.mem_range] at hi'
          simp only [Function.comp_apply] at hni'
          rw [getD_drop_one] at hni'
          have := nodup_names_getD_ne hnd (show (0 : Nat) ≠ i' + 1 by omega) hlen0 (by omega)
          rw [← headD_name_getD hne] at this
          exact this hni'.symm
        · refine (List.nodup_range _).map_on ?_
          intro i1 hi1 i2 hi2 he
          rw [List.mem_range] at hi1 hi2
          simp only [Function.comp_apply] at he
          rw [getD_drop_one, getD_drop_one] at he
          by_contra hne12
          rcases Nat.lt_or_ge i1 i2 with hlt | hge
          · exact nodup_names_getD_ne hnd (show i1 + 1 ≠ i2 + 1 by omega) (by omega) (by omega) he
          · have hlt2 : i2 < i1 := by omega
            exact nodup_names_getD_ne hnd (show i2 + 1 ≠ i1 + 1 by omega) (by omega) (by omega) he.symm
      have hmem : ((skeys.getD r dfltKB).name, i) ∈
          ([((skeys.headD dfltKB).name, 0)] ++ (List.range j).map
            (fun i => (((skeys.drop 1).getD i dfltKB).name, 1 + i))) := by
        rw [List.mem_append, List.mem_singleton]
        match i, hij with
        | 0, _ =>
          left
          rw [headD_name_getD hne, hiname]
        | i' + 1, hij =>
          right
          refine List.mem_map.mpr ⟨i', ?_, ?_⟩
          · rw [List.mem_range]; omega
          · rw [getD_drop_one, hiname]
            congr 1
            omega
      rw [lookup_of_mem_of_nodup _ _ _ hndk hmem] at hrel
      exact hrel

/-- C5 witness source: keys A (reference), C (relative to B, which is created
after it), B (relative to C, already created). -/
def keyA : KeyBlock :=
  { name := "A", data := [⟨0,0,0⟩, ⟨1,0,0⟩, ⟨0,1,0⟩], value := 0, slider_min := 0,
    slider_max := 1, mute := false, interpolation := "KEY_LINEAR", vertex_group := "",
    rel := some 0 }

def keyC : KeyBlock := { keyA with name := "C", rel := some 2 }

def keyB : KeyBlock := { keyA with name := "B", rel := some 1 }

def srcC5 : Obj := { srcW with shape_keys := some [keyA, keyC, keyB] }

theorem C5_relative_key_fallback_witness :
    ∃ rk, (transfer_mesh_data srcC5 tgtW).shape_keys = some rk ∧
      (∃ K, rk[1]? = some K ∧ K.rel = some 0) ∧
      (∃ K, rk[2]? = some K ∧ K.rel = some 1) := by
  obtain ⟨rk, h1, h2⟩ := C5_relative_key_fallback srcC5 tgtW [keyA, keyC, keyB] rfl
    (by simp) rfl (by decide)
  obtain ⟨K1, hK1, _, hrel1⟩ := h2 1 (by omega) (by simp)
  have hfb := (hrel1 2 rfl).1
  have h0 : K1.rel = some 0 := by
    refine hfb ?_
    intro i hi hlen
    interval_cases i <;> decide
  obtain ⟨K2, hK2, _, hrel2⟩ := h2 2 (by omega) (by simp)
  have hp := (hrel2 1 rfl).2 1 (by omega) (by simp) rfl
  exact ⟨rk, h1, ⟨K1, hK1, h0⟩, ⟨K2, hK2, hp⟩⟩

theorem dropDisjOf (t2 : Obj) {skeys : List KeyBlock} (hne : skeys ≠ [])
    (hnd : (skeys.map KeyBlock.name).Nodup) :
    ∀ i, i < (skeys.drop 1).length → ((skeys.drop 1).getD i dfltKB).name ∉
      ([refKeyOf t2 (skeys.headD dfltKB).name]).map KeyBlock.name := by
  intro i hi
  rw [getD_drop_one]
  rw [List.map_singleton, List.mem_singleton]
  intro h
  rw [show (refKeyOf t2 (skeys.headD dfltKB).name).name =
    (skeys.headD dfltKB).name from rfl, headD_name_getD hne] at h
  exact nodup_names_getD_ne hnd (by omega) (by simp at hi; omega)
    (List.length_pos.mpr hne) h

theorem dropNamesOf {skeys : List KeyBlock} (hnd : (skeys.map KeyBlock.name).Nodup) :
    ∀ i1 i2, i1 < i2 → i2 < (skeys.drop 1).length →
      ((skeys.drop 1).getD i1 dfltKB).name ≠ ((skeys.drop 1).getD i2 dfltKB).name := by
  intro i1 i2 h12 hi2
  rw [getD_drop_one, getD_drop_one]
  exact nodup_names_getD_ne hnd (by omega) (by simp at hi2; omega) (by simp at hi2; omega)

/-- Claim C7: within one invocation on a fixed pair, the single vertex map
built on lines 46-59 drives every channel: for a mapping pair `(t, s)` the
position written at `t`, the group weight set at `t` in every group, and the
datum written at `t` in every re-created shape key all come from the same
source vertex `s`. -/
theorem C7_mapping_consistency (source target : Obj) (t s : Nat)
    (hts : (t, s) ∈ buildVertMap source target) :
    ((transfer_mesh_data source target).verts[t]? = some (source.verts.getD s dfltV)) ∧
    (∀ (j : Nat) (sg : VGroup), source.vertex_groups[j]? = some sg →
      ∃ rg : VGroup, (transfer_mesh_data source target).vertex_groups[j]? = some rg ∧
        rg.w t = replayedWeight sg s none) ∧
    (∀ skeys, source.shape_keys = some skeys → skeys ≠ [] → target.shape_keys = none →
      (skeys.map KeyBlock.name).Nodup →
      ∃ rk, (transfer_mesh_data source target).shape_keys = some rk ∧
        ∀ j, 1 ≤ j → j < skeys.length →
          ∃ K, rk[j]? = some K ∧
            K.data[t]? = some ((skeys.getD j dfltKB).data.getD s dfltV)) := by
  have htn : t < target.verts.length := (mem_buildVertMap.mp hts).1
  have hsnap := (mem_buildVertMap.mp hts).2
  refine ⟨?_, ?_, ?_⟩
  · rw [transfer_verts]
    exact snapPositions_get_of_some hsnap htn
  · intro j sg hsg
    refine ⟨(buildVertMap source target).foldl (groupStep sg)
      ({ name := sg.name, w := fun _ => none } : VGroup), ?_, ?_⟩
    · rw [transfer_vertex_groups]
      simp [transferGroups, List.getElem?_map, hsg]
    · exact foldl_groupStep_w_of_mem sg t s _ _ (buildVertMap_keys_nodup source target) hts
  · intro skeys hsk hne ht2 hnd
    rw [transfer_eq, shapeKeyPhase_of_none hsk
      (show (t2Of source target).shape_keys = none from ht2)]
    refine ⟨_, rfl, ?_⟩
    intro j h1 hj
    have hj' : j - 1 < (skeys.drop 1).length := by simp; omega
    obtain ⟨K, hK, _, _, _, _, _, _, _, _, hmap, _⟩ :=
      skFold_get_new skeys (buildVertMap source target) (t2Of source target)
        (skeys.drop 1) [refKeyOf (t2Of source target) (skeys.headD dfltKB).name]
        [((skeys.headD dfltKB).name, 0)] (j - 1) hj'
        (dropDisjOf (t2Of source target) hne hnd) (dropNamesOf hnd)
    have hone : ([refKeyOf (t2Of source target) (skeys.headD dfltKB).name]).length +
        (j - 1) = j := by simp; omega
    rw [hone] at hK
    refine ⟨K, hK, ?_⟩
    have := hmap t s hts (buildVertMap_keys_nodup source target)
      (by rw [show (t2Of source target).verts = snapPositions source target from rfl,
        snapPositions_length]; exact htn)
    rw [getD_drop_one, show j - 1 + 1 = j by omega] at this
    exact this

theorem C7_mapping_consistency_witness :
    ((transfer_mesh_data srcW tgtW).verts[1]? = some ⟨1, 0, 0⟩) ∧
    (∃ rg : VGroup, (transfer_mesh_data srcW tgtW).vertex_groups[0]? = some rg ∧
      rg.w 1 = none) ∧
    (∃ rk, (transfer_mesh_data srcW tgtW).shape_keys = some rk ∧
      ∃ K, rk[1]? = some K ∧ K.data[1]? = some ⟨1, 0, 0⟩) := by
  obtain ⟨hp, hg, hk⟩ := C7_mapping_consistency srcW tgtW 1 1
    (vmW ▸ (by decide : ((1 : Nat), (1 : Nat)) ∈ [((0 : Nat), (0 : Nat)), (1, 1), (2, 2)]))
  obtain ⟨rg, hrg, hw⟩ :=
    hg 0 ({ name := "Weights", w := fun i => if i = 0 then some (1/2) else none }) rfl
  obtain ⟨rk, hrk, hks⟩ := hk [basisW, smileW] rfl (by simp) rfl (by decide)
  obtain ⟨K, hK, hKd⟩ := hks 1 (by omega) (by simp)
  refine ⟨?_, ⟨rg, hrg, ?_⟩, rk, hrk, K, hK, ?_⟩
  · rw [hp]; rfl
  · rw [hw]; rfl
  · rw [hKd]; rfl

/-- Claim C10 (implicit): the position written back for a mapped target
vertex is the snapped source vertex's coordinate in the source's local frame,
with no inverse transform into the target's frame; it is world-space correct
when the target's world matrix equals the source's, which the operator
arranges by assigning the source's original world matrix to the result
(line 199). -/
theorem C10_source_frame_positions (source target : Obj) :
    (∀ t s, (t, s) ∈ buildVertMap source target →
      ((transfer_mesh_data source target).verts[t]? = some (source.verts.getD s dfltV)) ∧
      (target.matrix_world = source.matrix_world →
        applyM (transfer_mesh_data source target).matrix_world
            ((transfer_mesh_data source target).verts.getD t dfltV) =
          applyM source.matrix_world (source.verts.getD s dfltV))) ∧
    (∀ (seamsFromIslands : Obj → Obj) (applyDecimate : Obj → ℚ → Obj) (ctx : Scene)
      (i : Nat) (ob : Obj), ctx.active = some i → ctx.objects[i]? = some ob →
      ob.type = "MESH" →
      ((execute seamsFromIslands applyDecimate ctx).2.2.objects.getLast?).map
          Obj.matrix_world = some ob.matrix_world) := by
  constructor
  · intro t s hts
    have htn := (mem_buildVertMap.mp hts).1
    have hsnap := (mem_buildVertMap.mp hts).2
    have hpos : (transfer_mesh_data source target).verts[t]? =
        some (source.verts.getD s dfltV) := by
      rw [transfer_verts]
      exact snapPositions_get_of_some hsnap htn
    refine ⟨hpos, ?_⟩
    intro hmat
    rw [transfer_matrix_world, hmat]
    congr 1
    rw [List.getD_eq_getElem?_getD, hpos]
    rfl
  · intro seams decim ctx i ob hA hO hty
    rw [execute, hA, executeHandle, hO]
    simp only [executeObj]
    rw [if_neg (fun h => h hty)]
    dsimp only
    rw [List.getLast?_concat, Option.map_some']

theorem C10_source_frame_positions_witness :
    ((transfer_mesh_data srcW tgtW).verts[1]? = some (srcW.verts.getD 1 dfltV)) ∧
    (applyM (transfer_mesh_data srcW tgtW).matrix_world
        ((transfer_mesh_data srcW tgtW).verts.getD 1 dfltV) =
      applyM srcW.matrix_world (srcW.verts.getD 1 dfltV)) ∧
    (((execute id (fun o _ => o)
          { objects := [srcW], active := some 0, ratioVal := 1/2 }).2.2.objects.getLast?).map
        Obj.matrix_world = some srcW.matrix_world) := by
  obtain ⟨h1, h2⟩ := (C10_source_frame_positions srcW tgtW).1 1 1
    (vmW ▸ (by decide : ((1 : Nat), (1 : Nat)) ∈ [((0 : Nat), (0 : Nat)), (1, 1), (2, 2)]))
  exact ⟨h1, h2 rfl,
    (C10_source_frame_positions srcW tgtW).2 id (fun o _ => o) _ 0 srcW rfl rfl rfl⟩

/-! ## Claim C6 (corrected): the no-op round trip needs a nondegeneracy proviso -/

/-- A source mesh with one triangle and an isolated (faceless) vertex at
`(5,5,0)`: the nearest-surface query of that vertex hits the triangle, so the
snap rewrites it to a triangle corner instead of mapping it to itself. -/
def srcI : Obj :=
  { name := "srcI", type := "MESH",
    verts := [⟨0,0,0⟩, ⟨1,0,0⟩, ⟨0,1,0⟩, ⟨5,5,0⟩],
    faces := [[0, 1, 2]], edges := [⟨0, 1, false⟩, ⟨1, 2, false⟩, ⟨2, 0, false⟩],
    matrix_world := 1, vertex_groups := [], shape_keys := none,
    active_shape_key_index := 0, hide := false, parent := none,
    parent_type := "OBJECT", parent_bone := "", matrix_parent_inverse := 1 }

/-- Claim C6, counterexample: with the target literally equal to the source
(same vertices, same identity transform), the vertex map does NOT send every
vertex to itself — the isolated vertex 3 snaps to vertex 1 (the earliest
nearest corner of the hit triangle) and its position is rewritten from
`(5,5,0)` to `(1,0,0)`.  The claim's universal round-trip statement is
therefore false as written. -/
theorem C6_counterexample :
    buildVertMap srcI srcI = [(0, 0), (1, 1), (2, 2), (3, 1)] ∧
    (transfer_mesh_data srcI srcI).verts[3]? = some ⟨1, 0, 0⟩ ∧
    srcI.verts[3]? = some ⟨5, 5, 0⟩ := by
  have h : ∀ p, localPos srcI srcI p = p := localPos_one rfl rfl
  refine ⟨?_, ?_, by with_unfolding_all decide⟩
  · simp only [buildVertMap, snapResult, h]
    with_unfolding_all decide
  · rw [transfer_verts]
    simp only [snapPositions, snapResult, h]
    with_unfolding_all decide

theorem headD_eq_getD_zero {α : Type _} (l : List α) (d : α) :
    l.headD d = l.getD 0 d := by
  cases l <;> rfl

theorem triDistSq_eq_zero_of_corner (verts : List V3) (T : Tri) (p : V3)
    (hab : verts.getD T.1 dfltV ≠ verts.getD T.2.1 dfltV)
    (hac : verts.getD T.1 dfltV ≠ verts.getD T.2.2 dfltV)
    (hbc : verts.getD T.2.1 dfltV ≠ verts.getD T.2.2 dfltV)
    (hc : verts.getD T.1 dfltV = p ∨ verts.getD T.2.1 dfltV = p ∨
      verts.getD T.2.2 dfltV = p) :
    triDistSq verts p T = 0 := by
  rw [triDistSq]
  rcases hc with h | h | h
  · rw [← h, closestOnTri_vertA, distSq_self]
  · rw [← h, closestOnTri_vertB _ _ _ hab, distSq_self]
  · rw [← h, closestOnTri_vertC _ _ _ hab hac hbc, distSq_self]

theorem filterMap_eq_map_of_forall {α β : Type _} (g : α → Option β) (f : α → β) :
    ∀ l : List α, (∀ a ∈ l, g a = some (f a)) → l.filterMap g = l.map f
  | [], _ => rfl
  | a :: l, h => by
    rw [List.filterMap_cons, h a (List.mem_cons_self _ _), List.map_cons,
      filterMap_eq_map_of_forall g f l (fun b hb => h b (List.mem_cons_of_mem _ hb))]

/-- On a nondegenerate mesh pair with identical geometry and transform, each
vertex's nearest-surface snap resolves to the vertex itself: the local-space
round trip is the identity, a triangle at the vertex realises distance zero,
any zero-distance triangle touches only at a shared corner position, and the
earliest minimising corner is position-equal to the query, hence (by
injectivity of positions) the vertex itself. -/
theorem snapResult_self (source target : Obj)
    (hv : target.verts = source.verts)
    (hm : target.matrix_world = source.matrix_world)
    (hdet : source.matrix_world.det ≠ 0)
    (h30 : source.matrix_world 3 0 = 0) (h31 : source.matrix_world 3 1 = 0)
    (h32 : source.matrix_world 3 2 = 0) (h33 : source.matrix_world 3 3 = 1)
    (hinj : ∀ i, i < source.verts.length → ∀ j, j < source.verts.length →
      source.verts.getD i dfltV = source.verts.getD j dfltV → i = j)
    (htri : ∀ T ∈ triangulate source.faces,
      (T.1 < source.verts.length ∧ T.2.1 < source.verts.length ∧
        T.2.2 < source.verts.length) ∧
      (T.1 ≠ T.2.1 ∧ T.1 ≠ T.2.2 ∧ T.2.1 ≠ T.2.2))
    (htouch : ∀ T ∈ triangulate source.faces, ∀ v, v < source.verts.length →
      triDistSq source.verts (source.verts.getD v dfltV) T = 0 →
      source.verts.getD T.1 dfltV = source.verts.getD v dfltV ∨
      source.verts.getD T.2.1 dfltV = source.verts.getD v dfltV ∨
      source.verts.getD T.2.2 dfltV = source.verts.getD v dfltV)
    (hcover : ∀ v, v < source.verts.length →
      ∃ T ∈ triangulate source.faces, T.1 = v ∨ T.2.1 = v ∨ T.2.2 = v)
    (v : Nat) (hvn : v < source.verts.length) :
    snapResult source target v = some v := by
  have hp : localPos source target (target.verts.getD v dfltV) =
      source.verts.getD v dfltV := by
    rw [hv, localPos, hm]
    exact applyM_inverted_applyM _ hdet h30 h31 h32 h33 _
  obtain ⟨T0, hT0mem, hT0c⟩ := hcover v hvn
  have htrisne : triangulate source.faces ≠ [] := by
    intro he
    rw [he] at hT0mem
    cases hT0mem
  rcases hfn : findNearest source.verts (triangulate source.faces)
      (source.verts.getD v dfltV) with _ | fIdx
  · exact absurd ((findNearest_eq_none_iff _ _ _).mp hfn) htrisne
  · obtain ⟨hf, hmin⟩ := findNearest_spec _ _ _ _ hfn
    have hT0zero : triDistSq source.verts (source.verts.getD v dfltV) T0 = 0 := by
      obtain ⟨⟨hb1, hb2, hb3⟩, ⟨hd1, hd2, hd3⟩⟩ := htri T0 hT0mem
      refine triDistSq_eq_zero_of_corner _ _ _
        (fun h => hd1 (hinj _ hb1 _ hb2 h)) (fun h => hd2 (hinj _ hb1 _ hb3 h))
        (fun h => hd3 (hinj _ hb2 _ hb3 h)) ?_
      rcases hT0c with h | h | h
      · exact Or.inl (by rw [h])
      · exact Or.inr (Or.inl (by rw [h]))
      · exact Or.inr (Or.inr (by rw [h]))
    obtain ⟨j0, hj0, hj0e⟩ := List.getElem_of_mem hT0mem
    have hstar : triDistSq source.verts (source.verts.getD v dfltV)
        ((triangulate source.faces).getD fIdx (0, 0, 0)) = 0 := by
      have hle := hmin j0 hj0
      rw [List.getD_eq_getElem _ _ hj0, hj0e, hT0zero] at hle
      exact le_antisymm hle (triDistSq_nonneg _ _ _)
    have hTmem : (triangulate source.faces).getD fIdx (0, 0, 0) ∈
        triangulate source.faces := by
      rw [List.getD_eq_getElem _ _ hf]
      exact List.getElem_mem hf
    obtain ⟨⟨hb1, hb2, hb3⟩, _⟩ := htri _ hTmem
    have hcorner := htouch _ hTmem v hvn hstar
    rcases hbv : bestVert source.verts (source.verts.getD v dfltV)
        [((triangulate source.faces).getD fIdx (0, 0, 0)).1,
         ((triangulate source.faces).getD fIdx (0, 0, 0)).2.1,
         ((triangulate source.faces).getD fIdx (0, 0, 0)).2.2] with _ | b
    · exact absurd ((bestVert_eq_none_iff _ _ _).mp hbv) (by simp)
    · obtain ⟨bi, bd⟩ := b
      obtain ⟨hbmem, hbval, hbmin⟩ := bestVert_spec _ _ _ _ _ hbv
      have hzero : bd = 0 := by
        refine le_antisymm ?_ (hbval ▸ distSq_nonneg _ _)
        rcases hcorner with h | h | h
        · have hb := hbmin ((triangulate source.faces).getD fIdx (0, 0, 0)).1 (by simp)
          rw [h, distSq_self] at hb
          exact hb
        · have hb := hbmin ((triangulate source.faces).getD fIdx (0, 0, 0)).2.1 (by simp)
          rw [h, distSq_self] at hb
          exact hb
        · have hb := hbmin ((triangulate source.faces).getD fIdx (0, 0, 0)).2.2 (by simp)
          rw [h, distSq_self] at hb
          exact hb
      have hbieq : source.verts.getD bi dfltV = source.verts.getD v dfltV := by
        rw [hzero] at hbval
        exact eq_of_distSq_eq_zero hbval.symm
      have hbin : bi < source.verts.length := by
        rcases List.mem_cons.mp hbmem with h | h
        · exact h ▸ hb1
        rcases List.mem_cons.mp h with h | h
        · exact h ▸ hb2
        · rw [List.mem_singleton] at h
          exact h ▸ hb3
      have hbiv : bi = v := hinj bi hbin v hvn hbieq
      have hnv : nearestVertOfTri source.verts
          ((triangulate source.faces).getD fIdx (0, 0, 0))
          (source.verts.getD v dfltV) = v := by
        rw [nearestVertOfTri, hbv]
        simpa using hbiv
      simp only [snapResult, hp, hfn]
      rw [hnv]

theorem snapPositions_self (source target : Obj) (hv : target.verts = source.verts)
    (hself : ∀ v, v < target.verts.length → snapResult source target v = some v) :
    snapPositions source target = target.verts := by
  refine List.ext_getElem? ?_
  intro t
  by_cases ht : t < target.verts.length
  · have hts : t < source.verts.length := by rw [← hv]; exact ht
    rw [snapPositions_get_of_some (hself t ht) ht, hv,
      List.getD_eq_getElem _ _ hts, List.getElem?_eq_getElem hts]
  · have h1 : (snapPositions source target)[t]? = none :=
      List.getElem?_eq_none (by rw [snapPositions_length]; omega)
    have h2 : target.verts[t]? = none := List.getElem?_eq_none (by omega)
    rw [h1, h2]

/-- Claim C6 (amended): the round trip on identical geometry is the identity
only on nondegenerate input.  When the target equals the source (same vertex
list, same invertible affine world matrix), vertex positions are pairwise
distinct, every face-corner index is in range with three distinct corners,
every vertex is a corner of some triangle, and no vertex position touches a
triangle except at a position shared with one of its corners, then the vertex
map sends every vertex to itself, the snapped positions equal the originals,
every group weight is reproduced (with `none`/`some 0` both read as weight 0,
matching `VertexGroup.weight` semantics for non-members), and — with a fresh
key-less target, distinct source key names, and a basis key matching the
source vertices — every shape key is re-created with the same name, the same
per-vertex data, and (beyond the reference key) the same scalar metadata.
Without the nondegeneracy proviso the claim fails (see the counterexample). -/
theorem C6_no_op_round_trip (source target : Obj)
    (hv : target.verts = source.verts)
    (hm : target.matrix_world = source.matrix_world)
    (hdet : source.matrix_world.det ≠ 0)
    (h30 : source.matrix_world 3 0 = 0) (h31 : source.matrix_world 3 1 = 0)
    (h32 : source.matrix_world 3 2 = 0) (h33 : source.matrix_world 3 3 = 1)
    (hinj : ∀ i, i < source.verts.length → ∀ j, j < source.verts.length →
      source.verts.getD i dfltV = source.verts.getD j dfltV → i = j)
    (htri : ∀ T ∈ triangulate source.faces,
      (T.1 < source.verts.length ∧ T.2.1 < source.verts.length ∧
        T.2.2 < source.verts.length) ∧
      (T.1 ≠ T.2.1 ∧ T.1 ≠ T.2.2 ∧ T.2.1 ≠ T.2.2))
    (htouch : ∀ T ∈ triangulate source.faces, ∀ v, v < source.verts.length →
      triDistSq source.verts (source.verts.getD v dfltV) T = 0 →
      source.verts.getD T.1 dfltV = source.verts.getD v dfltV ∨
      source.verts.getD T.2.1 dfltV = source.verts.getD v dfltV ∨
      source.verts.getD T.2.2 dfltV = source.verts.getD v dfltV)
    (hcover : ∀ v, v < source.verts.length →
      ∃ T ∈ triangulate source.faces, T.1 = v ∨ T.2.1 = v ∨ T.2.2 = v) :
    buildVertMap source target =
      (List.range target.verts.length).map (fun v => (v, v)) ∧
    (transfer_mesh_data source target).verts = target.verts ∧
    (∀ (j : Nat) (sg : VGroup), source.vertex_groups[j]? = some sg →
      (∀ i, 0 ≤ (sg.w i).getD 0) →
      ∃ rg : VGroup, (transfer_mesh_data source target).vertex_groups[j]? = some rg ∧
        rg.name = sg.name ∧
        ∀ t, t < target.verts.length → (rg.w t).getD 0 = (sg.w t).getD 0) ∧
    (∀ skeys : List KeyBlock, source.shape_keys = some skeys → skeys ≠ [] →
      target.shape_keys = none → (skeys.map KeyBlock.name).Nodup →
      (skeys.headD dfltKB).data = source.verts →
      ∃ rk : List KeyBlock, (transfer_mesh_data source target).shape_keys = some rk ∧
        rk.length = skeys.length ∧
        ∀ j, j < skeys.length → ∃ K : KeyBlock, rk[j]? = some K ∧
          K.name = (skeys.getD j dfltKB).name ∧
          (∀ t, t < source.verts.length →
            K.data.getD t dfltV = (skeys.getD j dfltKB).data.getD t dfltV) ∧
          (1 ≤ j → K.value = (skeys.getD j dfltKB).value ∧
            K.slider_min = (skeys.getD j dfltKB).slider_min ∧
            K.slider_max = (skeys.getD j dfltKB).slider_max ∧
            K.mute = (skeys.getD j dfltKB).mute ∧
            K.interpolation = (skeys.getD j dfltKB).interpolation ∧
            K.vertex_group = (skeys.getD j dfltKB).vertex_group)) := by
  have hself : ∀ v, v < target.verts.length → snapResult source target v = some v := by
    intro v hvt
    exact snapResult_self source target hv hm hdet h30 h31 h32 h33 hinj htri htouch
      hcover v (by rw [← hv]; exact hvt)
  have hmapid : buildVertMap source target =
      (List.range target.verts.length).map (fun v => (v, v)) := by
    rw [buildVertMap]
    refine filterMap_eq_map_of_forall _ _ _ ?_
    intro t htmem
    rw [hself t (List.mem_range.mp htmem)]
    rfl
  have hposid : (transfer_mesh_data source target).verts = target.verts := by
    rw [transfer_verts]
    exact snapPositions_self source target hv hself
  refine ⟨hmapid, hposid, ?_, ?_⟩
  · intro j sg hsg hnn
    rw [transfer_vertex_groups]
    refine ⟨(buildVertMap source target).foldl (groupStep sg)
      { name := sg.name, w := fun _ => none }, ?_, foldl_groupStep_name sg _ _, ?_⟩
    · simp [transferGroups, List.getElem?_map, hsg]
    · intro t htn
      have hmem : (t, t) ∈ buildVertMap source target := by
        rw [hmapid]
        exact List.mem_map.mpr ⟨t, List.mem_range.mpr htn, rfl⟩
      rw [foldl_groupStep_w_of_mem sg t t _ _ (buildVertMap_keys_nodup source target) hmem]
      cases hws : sg.w t with
      | none => simp [replayedWeight, hws]
      | some wt =>
        simp only [replayedWeight, hws]
        by_cases hp : 0 < wt
        · rw [if_pos hp]
        · rw [if_neg hp]
          have h0 : 0 ≤ wt := by simpa [hws] using hnn t
          have hwz : wt = 0 := le_antisymm (not_lt.mp hp) h0
          simp [hwz]
  · intro skeys hsk hne ht2 hnd hb
    have hlen0 : 0 < skeys.length := List.length_pos.mpr hne
    rw [transfer_eq, shapeKeyPhase_of_none hsk
      (show (t2Of source target).shape_keys = none from ht2)]
    have hdisj : ∀ i, i < (skeys.drop 1).length → ((skeys.drop 1).getD i dfltKB).name ∉
        ([refKeyOf (t2Of source target) (skeys.headD dfltKB).name]).map KeyBlock.name := by
      intro i hi
      rw [getD_drop_one]
      rw [List.map_singleton, List.mem_singleton]
      intro h
      rw [show (refKeyOf (t2Of source target) (skeys.headD dfltKB).name).name =
        (skeys.headD dfltKB).name from rfl, headD_name_getD hne] at h
      exact nodup_names_getD_ne hnd (by omega) (by simp at hi; omega) hlen0 h
    have hnames : ∀ i1 i2, i1 < i2 → i2 < (skeys.drop 1).length →
        ((skeys.drop 1).getD i1 dfltKB).name ≠ ((skeys.drop 1).getD i2 dfltKB).name := by
      intro i1 i2 h12 hi2
      rw [getD_drop_one, getD_drop_one]
      exact nodup_names_getD_ne hnd (by omega) (by simp at hi2; omega) (by simp at hi2; omega)
    refine ⟨_, rfl, ?_, ?_⟩
    · rw [skFold_length]
      simp
      omega
    · intro j hj
      rcases Nat.eq_zero_or_pos j with rfl | hj1
      · refine ⟨refKeyOf (t2Of source target) (skeys.headD dfltKB).name, ?_, ?_, ?_, ?_⟩
        · rw [skFold_get_old _ _ _ _ _ _ 0 (by simp)]
          simp
        · rw [show (refKeyOf (t2Of source target) (skeys.headD dfltKB).name).name =
            (skeys.headD dfltKB).name from rfl, headD_name_getD hne]
        · intro t htn
          have htt : t < target.verts.length := by rw [hv]; exact htn
          rw [show (refKeyOf (t2Of source target) (skeys.headD dfltKB).name).data =
            snapPositions source target from rfl]
          rw [List.getD_eq_getElem?_getD, snapPositions_get_of_some (hself t htt) htt,
            ← headD_eq_getD_zero, hb]
          rfl
        · intro h1
          omega
      · have hj' : j - 1 < (skeys.drop 1).length := by simp; omega
        obtain ⟨K, hK, hname, hval, hsmin, hsmax, hmute, hinterp, hvgr, hlenK, hmapK, _⟩ :=
          skFold_get_new skeys (buildVertMap source target) (t2Of source target)
            (skeys.drop 1) [refKeyOf (t2Of source target) (skeys.headD dfltKB).name]
            [((skeys.headD dfltKB).name, 0)] (j - 1) hj' hdisj hnames
        have hone : ([refKeyOf (t2Of source target) (skeys.headD dfltKB).name]).length +
            (j - 1) = j := by simp; omega
        rw [hone] at hK
        have hj1e : j - 1 + 1 = j := by omega
        refine ⟨K, hK, ?_, ?_, ?_⟩
        · rw [hname, getD_drop_one, hj1e]
        · intro t htn
          have htt : t < target.verts.length := by rw [hv]; exact htn
          have hmemtt : (t, t) ∈ buildVertMap source target := by
            rw [hmapid]
            exact List.mem_map.mpr ⟨t, List.mem_range.mpr htt, rfl⟩
          have hKt := hmapK t t hmemtt (buildVertMap_keys_nodup source target)
            (by rw [show (t2Of source target).verts = snapPositions source target from rfl,
              snapPositions_length]; exact htt)
          rw [getD_drop_one, hj1e] at hKt
          rw [List.getD_eq_getElem?_getD, hKt]
          rfl
        · intro _
          rw [getD_drop_one, hj1e] at hval hsmin hsmax hmute hinterp hvgr
          exact ⟨hval, hsmin, hsmax, hmute, hinterp, hvgr⟩

theorem C6_no_op_round_trip_witness :
    buildVertMap srcW tgtW = [(0, 0), (1, 1), (2, 2)] ∧
    (transfer_mesh_data srcW tgtW).verts = tgtW.verts ∧
    (∃ rg : VGroup, (transfer_mesh_data srcW tgtW).vertex_groups[0]? = some rg ∧
      rg.name = "Weights" ∧ (rg.w 0).getD 0 = 1/2) ∧
    (∃ rk : List KeyBlock, (transfer_mesh_data srcW tgtW).shape_keys = some rk ∧
      rk.length = 2) := by
  obtain ⟨h1, h2, h3, h4⟩ := C6_no_op_round_trip srcW tgtW rfl rfl
    (by rw [show srcW.matrix_world = 1 from rfl]; simp)
    (by rw [show srcW.matrix_world = 1 from rfl, Matrix.one_apply_ne (by decide)])
    (by rw [show srcW.matrix_world = 1 from rfl, Matrix.one_apply_ne (by decide)])
    (by rw [show srcW.matrix_world = 1 from rfl, Matrix.one_apply_ne (by decide)])
    (by rw [show srcW.matrix_world = 1 from rfl, Matrix.one_apply_eq])
    (by with_unfolding_all decide)
    (by with_unfolding_all decide)
    (by with_unfolding_all decide)
    (by with_unfolding_all decide)
  refine ⟨by rw [h1]; with_unfolding_all decide, h2, ?_, ?_⟩
  · obtain ⟨rg, hrg, hn, hwt⟩ := h3 0
      { name := "Weights", w := fun i => if i = 0 then some (1/2) else none } rfl
      (by intro i; by_cases h : i = 0 <;> simp [h])
    refine ⟨rg, hrg, hn, ?_⟩
    rw [hwt 0 (by with_unfolding_all decide)]
    with_unfolding_all decide
  · obtain ⟨rk, hrk, hlenr, _⟩ := h4 [basisW, smileW] rfl (by simp) rfl
      (by simp [basisW, smileW]) rfl
    exact ⟨rk, hrk, by rw [hlenr]; rfl⟩

end OneClickDecimate
